import Mathlib

/-!
Shallow embedding of `src/app.py` (mspr_nester): a FastAPI + SQLAlchemy
service over three SQLite tables (`clients`, `computers`, `ports`) with four
endpoints: bulk create (`POST /clients/`), list all (`GET /clients/`),
partial update (`PUT /clients/{client_name}`) and cascading delete
(`DELETE /clients/{client_name}`).

Modelling notes, each tied to the source:
* Tables are lists of rows plus the autoincrement counters for the integer
  primary keys; a fresh id is handed out when a row is flushed/inserted.
* `Column(String, unique=True)` on `clients.name` and `computers.ip_address`
  creates UNIQUE indexes; an INSERT violating one raises IntegrityError at
  the flush (create_clients flushes per row) or at the commit (update_client
  never flushes). Every handler wraps its body in try/except: any exception
  — an HTTPException raised in the try block or an IntegrityError — leads to
  `session.rollback()`, so a faulting call leaves the persisted state
  unchanged; the `Fault` constructors record which path raised.
* JSON objects (`dict`) become association lists. Python dict keys are
  distinct; the lists here may repeat keys, so theorems whose truth depends
  on dict-shaped input carry explicit `Nodup` hypotheses.
* `d.get(k)` becomes an `Option` field; `d.get(k, default)` becomes `getD`.
* The session has `autoflush=False`, so rows `session.add`ed during
  `update_client` are invisible to later queries of the same call. On
  dict-shaped input (distinct ip keys, distinct port keys per computer) no
  query of a call can target a row added earlier in that call, so the
  sequential state threading below is observationally identical.
-/

namespace Nester

/-- A row of the `clients` table (`class Client`, app.py lines 25-30):
integer primary key `id` and a `name` column with a UNIQUE index. -/
structure Client where
  id : Nat
  name : String
deriving Repr, DecidableEq

/-- A row of the `computers` table (`class Computer`, app.py lines 32-41):
integer primary key, `ip_address` with a UNIQUE index, nullable `latency`
and `hostname`, and the owning client's id. -/
structure Computer where
  id : Nat
  ip_address : String
  latency : Option String
  hostname : Option String
  client_id : Nat
deriving Repr, DecidableEq

/-- A row of the `ports` table (`class Port`, app.py lines 43-50): integer
primary key, `port_number` and `service_name` strings (no uniqueness
constraint), and the owning computer's id. -/
structure Port where
  id : Nat
  port_number : String
  service_name : String
  computer_id : Nat
deriving Repr, DecidableEq

/-- The persisted state: the three tables and the autoincrement counters of
their integer primary keys. -/
structure DB where
  clients : List Client
  computers : List Computer
  ports : List Port
  nextClientId : Nat
  nextComputerId : Nat
  nextPortId : Nat
deriving Repr, DecidableEq

/-- The database right after `Base.metadata.create_all` (app.py line 53):
empty tables, autoincrement counters at 1. -/
def emptyDB : DB := ⟨[], [], [], 1, 1, 1⟩

/-- The value under one ip key of a request's `computers` mapping:
`computer_data.get("latency")` / `.get("hostname")` give `none` when the key
is absent, `computer_data.get("ports", {})` defaults to the empty mapping. -/
structure ComputerData where
  latency : Option String
  hostname : Option String
  ports : List (String × String)
deriving Repr, DecidableEq

/-- One element of the JSON array posted to `POST /clients/`:
`client_data.get("client")` and `client_data.get("computers")`. -/
structure ClientEntry where
  client : Option String
  computers : Option (List (String × ComputerData))
deriving Repr, DecidableEq

/-- The body of `PUT /clients/{client_name}`: `data.get("computers", {})`
defaults to the empty mapping when the key is absent. -/
structure UpdateData where
  computers : Option (List (String × ComputerData))
deriving Repr, DecidableEq

/-- The fault paths of app.py. Each handler catches every exception of its
body, rolls the session back and re-raises as a 500 response; the
constructors record which check raised. -/
inductive Fault where
  /-- `HTTPException(400, "Invalid data format")` — create_clients line 71. -/
  | invalidInput
  /-- `HTTPException(400, "Client '<name>' already exists")` — line 76. -/
  | clientExists (name : String)
  /-- `HTTPException(404, "Client not found")` — lines 143 and 186. -/
  | notFound
  /-- IntegrityError from the UNIQUE index on `computers.ip_address`. -/
  | ipExists (ip : String)
deriving Repr, DecidableEq

/-- Spec §7 classifies a fault as a Conflict exactly when a uniqueness
invariant is violated: a duplicate client name, a duplicate computer IP, or
a cross-client IP collision. -/
def Fault.isConflict : Fault → Bool
  | .clientExists _ => true
  | .ipExists _ => true
  | _ => false

/-- What a handler returns to the transport layer. -/
inductive Result where
  | success (msg : String)
  | fault (f : Fault)
deriving Repr, DecidableEq

/-- Port rows built for one new computer during create_clients (lines
94-100), ids drawn from the autoincrement counter in mapping order. -/
def mkPorts (pid coid : Nat) : List (String × String) → List Port
  | [] => []
  | (p, s) :: rest => ⟨pid, p, s, coid⟩ :: mkPorts (pid + 1) coid rest

/-- The computer loop of create_clients (lines 84-100). The `session.flush()`
after each `session.add(computer)` executes the INSERT, so the UNIQUE index
on `ip_address` rejects an IP already present — whether persisted before the
call or inserted earlier in the same call. The computer's ports are then
added (they are only INSERTed at commit, but no constraint can reject
them). -/
def insertComputers (db : DB) (cid : Nat) :
    List (String × ComputerData) → Except Fault DB
  | [] => .ok db
  | (ip, cd) :: rest =>
    if db.computers.any (fun c => c.ip_address = ip) then
      .error (.ipExists ip)
    else
      let coid := db.nextComputerId
      insertComputers
        { db with
          computers := db.computers ++ [⟨coid, ip, cd.latency, cd.hostname, cid⟩],
          ports := db.ports ++ mkPorts db.nextPortId coid cd.ports,
          nextComputerId := coid + 1,
          nextPortId := db.nextPortId + cd.ports.length }
        cid rest

/-- The client insert of create_clients (lines 79-81): `session.add(client)`
and the flush that assigns its id from the autoincrement counter. -/
def addClientRow (db : DB) (name : String) : DB :=
  { db with
    clients := db.clients ++ [⟨db.nextClientId, name⟩],
    nextClientId := db.nextClientId + 1 }

/-- The entry loop of create_clients (lines 66-100): validate (`not
client_name or not computers`), reject an already-existing name — the query
sees rows flushed by earlier entries of the same call — then insert the
client and its computers. -/
def processEntries (db : DB) : List ClientEntry → Except Fault DB
  | [] => .ok db
  | e :: rest =>
    let name := e.client.getD ""
    let comps := e.computers.getD []
    if name = "" ∨ comps.isEmpty then .error .invalidInput
    else if db.clients.any (fun c => c.name = name) then .error (.clientExists name)
    else
      match insertComputers (addClientRow db name) db.nextClientId comps with
      | .error f => .error f
      | .ok db2 => processEntries db2 rest

/-- `POST /clients/` (create_clients, app.py lines 62-108): one transaction;
on any fault the rollback leaves the state unchanged. -/
def create_clients (db : DB) (data : List ClientEntry) : Result × DB :=
  match processEntries db data with
  | .ok db2 => (.success "Clients and computers created successfully", db2)
  | .error f => (.fault f, db)

/-- The nested record projected for one computer (app.py lines 124-129). -/
structure ComputerTree where
  ip_address : String
  latency : Option String
  hostname : Option String
  ports : List (String × String)
deriving Repr, DecidableEq

/-- The nested record projected for one client (app.py lines 121-132). -/
structure ClientTree where
  client : String
  computers : List ComputerTree
deriving Repr, DecidableEq

/-- The projection of one client row: its computers are the rows whose
`client_id` points at it, each with the ports whose `computer_id` points at
the computer (the ORM relationships of lines 30 and 41). -/
def clientTree (db : DB) (c : Client) : ClientTree :=
  { client := c.name
    computers := (db.computers.filter (fun m => m.client_id = c.id)).map fun m =>
      { ip_address := m.ip_address
        latency := m.latency
        hostname := m.hostname
        ports := (db.ports.filter (fun p => p.computer_id = m.id)).map fun p =>
          (p.port_number, p.service_name) } }

/-- The two response shapes of `GET /clients/`. -/
inductive ListAllResult where
  | message (s : String)
  | trees (l : List ClientTree)
deriving Repr, DecidableEq

/-- `GET /clients/` (get_all_clients, app.py lines 111-135): with no client
rows it returns the JSON object `{"message": "No clients found"}` (line
117), otherwise the projected list. It has no fault path (totality of this
function). -/
def get_all_clients (db : DB) : ListAllResult :=
  if db.clients.isEmpty then .message "No clients found"
  else .trees (db.clients.map (clientTree db))

/-- `l` with `f` applied to its first element satisfying `p`: the effect of
mutating the ORM object returned by `query(...).first()`. -/
def replaceFirst (p : α → Bool) (f : α → α) : List α → List α
  | [] => []
  | a :: rest => if p a then f a :: rest else a :: replaceFirst p f rest

/-- The field-level merge of update_client (lines 149-150):
`computer.latency = computer_data.get("latency", computer.latency)` and
likewise `hostname` — a patch key present overwrites, an absent one keeps
the stored value. The ip, id and owner are never touched. -/
def mergeComputer (cd : ComputerData) (c : Computer) : Computer :=
  { c with
    latency := match cd.latency with | some v => some v | none => c.latency
    hostname := match cd.hostname with | some v => some v | none => c.hostname }

/-- The port upsert loop of update_client (lines 153-160): if a row with
this computer's id and this port number exists, overwrite its
`service_name` (the first such row, as `query(...).first()` returns);
otherwise add a new row. -/
def upsertPorts (db : DB) (coid : Nat) : List (String × String) → DB
  | [] => db
  | (p, s) :: rest =>
    if db.ports.any (fun q => q.computer_id = coid ∧ q.port_number = p) then
      upsertPorts
        { db with
          ports := replaceFirst (fun q => q.computer_id = coid ∧ q.port_number = p)
            (fun q => { q with service_name := s }) db.ports }
        coid rest
    else
      upsertPorts
        { db with
          ports := db.ports ++ [⟨db.nextPortId, p, s, coid⟩],
          nextPortId := db.nextPortId + 1 }
        coid rest

/-- The per-IP loop of update_client (lines 146-169). The computer lookup is
scoped to the target client (`Computer.ip_address == ip, Computer.client_id
== client.id`). On a hit: field-level merge, then port upsert. On a miss: a
new computer is added with the given fields and NO ports (the else branch,
lines 161-169, never touches `computer_data["ports"]`). Returns the new
state and the IPs of the freshly added computers, in add order: their
INSERTs only run at commit. -/
def applyComputers (db : DB) (cid : Nat) :
    List (String × ComputerData) → DB × List String
  | [] => (db, [])
  | (ip, cd) :: rest =>
    match db.computers.find? (fun c => c.ip_address = ip ∧ c.client_id = cid) with
    | some comp =>
      let db1 : DB :=
        { db with
          computers := replaceFirst (fun c => c.ip_address = ip ∧ c.client_id = cid)
            (mergeComputer cd) db.computers }
      applyComputers (upsertPorts db1 comp.id cd.ports) cid rest
    | none =>
      let coid := db.nextComputerId
      let res := applyComputers
        { db with
          computers := db.computers ++ [⟨coid, ip, cd.latency, cd.hostname, cid⟩],
          nextComputerId := coid + 1 }
        cid rest
      (res.1, ip :: res.2)

/-- At commit the pending INSERTs run in add order; the UNIQUE index on
`computers.ip_address` rejects the first added IP already present among
`existing` (the rows persisted before the call — updates never change an
ip) or added earlier in the same call. -/
def firstDupIp (existing : List String) : List String → Option String
  | [] => none
  | ip :: rest => if ip ∈ existing then some ip else firstDupIp (existing ++ [ip]) rest

/-- `PUT /clients/{client_name}` (update_client, app.py lines 137-177): look
the client up by name (404 when absent), run the per-IP loop, then commit —
which fails, rolling everything back, iff a freshly added computer collides
on ip with a pre-existing row or an earlier addition of the same call. -/
def update_client (db : DB) (client_name : String) (data : UpdateData) :
    Result × DB :=
  match db.clients.find? (fun c => c.name = client_name) with
  | none => (.fault .notFound, db)
  | some client =>
    let res := applyComputers db client.id (data.computers.getD [])
    match firstDupIp (db.computers.map (fun c => c.ip_address)) res.2 with
    | some ip => (.fault (.ipExists ip), db)
    | none => (.success ("Client '" ++ client_name ++ "' updated successfully"), res.1)

/-- `DELETE /clients/{client_name}` (delete_client, app.py lines 180-195):
look the client up by name (404 when absent); `session.delete(client)` with
the `cascade="all, delete"` relationships of lines 30 and 41 removes the
client row, every computer row owned by it, and every port row owned by
those computers. -/
def delete_client (db : DB) (client_name : String) : Result × DB :=
  match db.clients.find? (fun c => c.name = client_name) with
  | none => (.fault .notFound, db)
  | some client =>
    let deadIds := (db.computers.filter (fun m => m.client_id = client.id)).map Computer.id
    (.success ("Client '" ++ client_name ++ "' deleted successfully"),
     { db with
        clients := db.clients.filter (fun c => ¬ c.id = client.id),
        computers := db.computers.filter (fun m => ¬ m.client_id = client.id),
        ports := db.ports.filter (fun p => ¬ p.computer_id ∈ deadIds) })

/-- One API call, for stating invariants over operation sequences. -/
inductive Op where
  | create (data : List ClientEntry)
  | update (name : String) (data : UpdateData)
  | delete (name : String)
deriving Repr

/-- The state after one call (the response is discarded; a faulting call
returns the rolled-back, unchanged state). -/
def runOp (db : DB) : Op → DB
  | .create data => (create_clients db data).2
  | .update n d => (update_client db n d).2
  | .delete n => (delete_client db n).2

/-- The state after a sequence of calls. -/
def runOps (db : DB) : List Op → DB
  | [] => db
  | op :: rest => runOps (runOp db op) rest

/-- Freshness of the autoincrement counters: every id held by a row (or
referenced as a foreign key) is below the counter that hands out the next
id, as SQLite's rowid allocation maintains. -/
def Fresh (db : DB) : Prop :=
  (∀ c ∈ db.clients, c.id < db.nextClientId) ∧
  (∀ m ∈ db.computers, m.id < db.nextComputerId ∧ m.client_id < db.nextClientId) ∧
  (∀ p ∈ db.ports, p.computer_id < db.nextComputerId)

instance : DecidablePred Fresh := fun db => by unfold Fresh; infer_instance

/-- Structural well-formedness of a persisted state, as the schema and the
autoincrement discipline maintain it: fresh counters, unique client
ids/names, unique computer ids/ips. -/
def WF (db : DB) : Prop :=
  Fresh db ∧
  (db.clients.map Client.name).Nodup ∧
  (db.clients.map Client.id).Nodup ∧
  (db.computers.map Computer.ip_address).Nodup ∧
  (db.computers.map Computer.id).Nodup

instance : DecidablePred WF := fun db => by unfold WF; infer_instance

/-- The (computer_id, port_number) key of each port row, in order: the
composite identity of spec §3. -/
def portKeys (l : List Port) : List (Nat × String) :=
  l.map fun q => (q.computer_id, q.port_number)

/-- The composite identity of spec §3: at most one port row per
(computer_id, port_number) pair. -/
def PortsUnique (db : DB) : Prop :=
  (portKeys db.ports).Nodup

instance : DecidablePred PortsUnique := fun db => by unfold PortsUnique; infer_instance

/-- The input of one call is dict-shaped where the port-uniqueness argument
needs it: every ports mapping of a bulk-create entry has distinct keys
(Python dict keys are distinct). Update and delete need no such condition:
the update's port upsert checks for an existing row before inserting. -/
def DictOp : Op → Prop
  | .create data => ∀ e ∈ data, ∀ x ∈ e.computers.getD [],
      (x.2.ports.map Prod.fst).Nodup
  | .update _ _ => True
  | .delete _ => True

instance (op : Op) : Decidable (DictOp op) := by
  cases op with
  | create data =>
      exact (inferInstance : Decidable (∀ e ∈ data, ∀ x ∈ e.computers.getD [],
        (x.2.ports.map Prod.fst).Nodup))
  | update n d => exact (inferInstance : Decidable True)
  | delete n => exact (inferInstance : Decidable True)

/-- The validation of create_clients line 70 passes: the entry has a
non-empty client name and a non-empty computers mapping. -/
def ValidEntry (e : ClientEntry) : Prop :=
  ¬ e.client.getD "" = "" ∧ ¬ (e.computers.getD []).isEmpty = true

instance : DecidablePred ValidEntry := fun e => by unfold ValidEntry; infer_instance

/-- The projection a round trip should give back: one tree per entry,
directly from the entry's fields. -/
def entryToTree (e : ClientEntry) : ClientTree :=
  { client := e.client.getD ""
    computers := (e.computers.getD []).map fun x =>
      { ip_address := x.1, latency := x.2.latency, hostname := x.2.hostname
        ports := x.2.ports } }

/-- All ip keys of a bulk-create input, in order. -/
def entryIps (data : List ClientEntry) : List String :=
  data.flatMap fun e => (e.computers.getD []).map Prod.fst

/-- All client names of a bulk-create input, in order. -/
def entryNames (data : List ClientEntry) : List String :=
  data.map fun e => e.client.getD ""

/-! ## Concrete states used to instantiate the theorems -/

/-- A bulk-create entry: client "acme" with one computer and two ports. -/
def acmeEntry : ClientEntry :=
  ⟨some "acme",
   some [("10.0.0.1", ⟨some "2ms", some "web1", [("80", "http"), ("443", "https")]⟩)]⟩

/-- A bulk-create entry: client "beta" with one computer and no ports. -/
def betaEntry : ClientEntry := ⟨some "beta", some [("10.0.0.9", ⟨none, none, []⟩)]⟩

/-- The state after bulk-creating `acmeEntry` on the empty database. -/
def acmeDB : DB := (create_clients emptyDB [acmeEntry]).2

/-- The state after bulk-creating `acmeEntry` then `betaEntry`. -/
def twoDB : DB := (create_clients acmeDB [betaEntry]).2

/-- A patch mapping an IP that exists nowhere in `acmeDB`/`twoDB` to
computer data that carries a ports mapping. -/
def freshPortPatch : UpdateData :=
  ⟨some [("10.0.0.2", ⟨some "3ms", some "web2", [("22", "ssh")]⟩)]⟩

/-! ## Helper lemmas on list search and first-match replacement -/

theorem find?_append_cons (p : α → Bool) (pre : List α) (a : α) (post : List α)
    (hpre : ∀ x ∈ pre, ¬ p x = true) (ha : p a = true) :
    (pre ++ a :: post).find? p = some a := by
  induction pre with
  | nil => rw [List.nil_append, List.find?_cons_of_pos _ ha]
  | cons x xs ih =>
      have hx : p x = false := by simpa using hpre x (by simp)
      rw [List.cons_append, List.find?_cons_of_neg _ (by simp [hx])]
      exact ih fun y hy => hpre y (List.mem_cons_of_mem x hy)

theorem replaceFirst_append_cons (p : α → Bool) (f : α → α) (pre : List α)
    (a : α) (post : List α)
    (hpre : ∀ x ∈ pre, ¬ p x = true) (ha : p a = true) :
    replaceFirst p f (pre ++ a :: post) = pre ++ f a :: post := by
  induction pre with
  | nil => simp [replaceFirst, ha]
  | cons x xs ih =>
      have hx : p x = false := by simpa using hpre x (by simp)
      simp only [List.cons_append, replaceFirst, hx, Bool.false_eq_true, if_false]
      exact congrArg (x :: ·) (ih fun y hy => hpre y (List.mem_cons_of_mem x hy))

/-! ## Lemmas on the bulk-create loop -/

theorem entryNames_cons (e : ClientEntry) (rest : List ClientEntry) :
    entryNames (e :: rest) = e.client.getD "" :: entryNames rest := rfl

theorem entryIps_cons (e : ClientEntry) (rest : List ClientEntry) :
    entryIps (e :: rest) = (e.computers.getD []).map Prod.fst ++ entryIps rest := rfl

theorem insertComputers_frame (cid : Nat) (comps : List (String × ComputerData)) :
    ∀ db db', insertComputers db cid comps = .ok db' →
      db'.clients = db.clients ∧ db'.nextClientId = db.nextClientId ∧
      ∃ s, db'.computers = db.computers ++ s := by
  induction comps with
  | nil =>
      intro db db' h
      cases h
      exact ⟨rfl, rfl, [], by simp⟩
  | cons head rest ih =>
      obtain ⟨ip, cd⟩ := head
      intro db db' h
      simp only [insertComputers] at h
      by_cases hany : (db.computers.any fun c => c.ip_address = ip) = true
      · rw [if_pos hany] at h; cases h
      · rw [if_neg hany] at h
        obtain ⟨h1, h2, s, h3⟩ := ih _ _ h
        exact ⟨h1, h2, ⟨_ :: s, by simpa using h3⟩⟩

theorem insertComputers_fresh (cid : Nat) (comps : List (String × ComputerData)) :
    ∀ db db', insertComputers db cid comps = .ok db' →
      ∀ ip ∈ comps.map Prod.fst, ¬ ip ∈ db.computers.map Computer.ip_address := by
  induction comps with
  | nil => intro db db' _ ip h; simp at h
  | cons head rest ih =>
      obtain ⟨ip0, cd⟩ := head
      intro db db' h ip hip
      simp only [insertComputers] at h
      by_cases hany : (db.computers.any fun c => c.ip_address = ip0) = true
      · rw [if_pos hany] at h; cases h
      · rw [if_neg hany] at h
        rw [List.map_cons] at hip
        rcases List.mem_cons.mp hip with rfl | hmem
        · intro hc
          rcases List.mem_map.mp hc with ⟨m, hm, he⟩
          exact hany (List.any_eq_true.mpr ⟨m, hm, by simp [he]⟩)
        · intro hc
          refine ih _ _ h ip hmem ?_
          rcases List.mem_map.mp hc with ⟨m, hm, he⟩
          exact List.mem_map.mpr ⟨m, by simp [hm], he⟩

theorem insertComputers_error_conflict (cid : Nat) (comps : List (String × ComputerData)) :
    ∀ db f, insertComputers db cid comps = .error f → f.isConflict = true := by
  induction comps with
  | nil => intro db f h; cases h
  | cons head rest ih =>
      obtain ⟨ip0, cd⟩ := head
      intro db f h
      simp only [insertComputers] at h
      by_cases hany : (db.computers.any fun c => c.ip_address = ip0) = true
      · rw [if_pos hany] at h; cases h; rfl
      · rw [if_neg hany] at h
        exact ih _ _ h

theorem processEntries_frame (data : List ClientEntry) :
    ∀ db db', processEntries db data = .ok db' →
      (∃ s, db'.clients = db.clients ++ s) ∧
      (∃ t, db'.computers = db.computers ++ t) := by
  induction data with
  | nil =>
      intro db db' h
      cases h
      exact ⟨⟨[], by simp⟩, ⟨[], by simp⟩⟩
  | cons e rest ih =>
      intro db db' h
      simp only [processEntries] at h
      by_cases hv : (e.client.getD "" = "" ∨ ((e.computers.getD []).isEmpty : Bool))
      · rw [if_pos hv] at h; cases h
      · rw [if_neg hv] at h
        by_cases hex : (db.clients.any fun c => c.name = e.client.getD "") = true
        · rw [if_pos hex] at h; cases h
        · rw [if_neg hex] at h
          cases hins : insertComputers (addClientRow db (e.client.getD ""))
              db.nextClientId (e.computers.getD []) with
          | error f => rw [hins] at h; cases h
          | ok db2 =>
              rw [hins] at h
              obtain ⟨⟨s, hs⟩, t, ht⟩ := ih _ _ h
              obtain ⟨hc, -, u, hu⟩ := insertComputers_frame _ _ _ _ hins
              refine ⟨⟨⟨db.nextClientId, e.client.getD ""⟩ :: s, ?_⟩, ⟨u ++ t, ?_⟩⟩
              · rw [hs, hc]; simp [addClientRow]
              · rw [ht, hu]; simp [addClientRow]

theorem processEntries_error_conflict (data : List ClientEntry) :
    ∀ db f, (∀ e ∈ data, ValidEntry e) → processEntries db data = .error f →
      f.isConflict = true := by
  induction data with
  | nil => intro db f _ h; cases h
  | cons e rest ih =>
      intro db f hvalid h
      simp only [processEntries] at h
      obtain ⟨hv1, hv2⟩ := hvalid e (by simp)
      rw [if_neg (by simpa using ⟨hv1, fun hc => hv2 (by simpa using hc)⟩)] at h
      by_cases hex : (db.clients.any fun c => c.name = e.client.getD "") = true
      · rw [if_pos hex] at h; cases h; rfl
      · rw [if_neg hex] at h
        cases hins : insertComputers (addClientRow db (e.client.getD ""))
            db.nextClientId (e.computers.getD []) with
        | error g =>
            rw [hins] at h
            cases h
            exact insertComputers_error_conflict _ _ _ _ hins
        | ok db2 =>
            rw [hins] at h
            exact ih _ _ (fun x hx => hvalid x (by simp [hx])) h

theorem processEntries_names (data : List ClientEntry) :
    ∀ db db', processEntries db data = .ok db' →
      (entryNames data).Nodup ∧
      ∀ nm ∈ entryNames data, ¬ nm ∈ db.clients.map Client.name := by
  induction data with
  | nil => intro db db' _; simp [entryNames]
  | cons e rest ih =>
      intro db db' h
      simp only [processEntries] at h
      by_cases hv : (e.client.getD "" = "" ∨ ((e.computers.getD []).isEmpty : Bool))
      · rw [if_pos hv] at h; cases h
      · rw [if_neg hv] at h
        by_cases hex : (db.clients.any fun c => c.name = e.client.getD "") = true
        · rw [if_pos hex] at h; cases h
        · rw [if_neg hex] at h
          cases hins : insertComputers (addClientRow db (e.client.getD ""))
              db.nextClientId (e.computers.getD []) with
          | error f => rw [hins] at h; cases h
          | ok db2 =>
              rw [hins] at h
              obtain ⟨hnd, hni⟩ := ih _ _ h
              obtain ⟨hc2, -, -⟩ := insertComputers_frame _ _ _ _ hins
              have hrest : ∀ nm ∈ entryNames rest,
                  ¬ nm ∈ db.clients.map Client.name ∧ ¬ nm = e.client.getD "" := by
                intro nm hnm
                have := hni nm hnm
                rw [hc2] at this
                simp only [addClientRow, List.map_append, List.mem_append] at this
                push_neg at this
                exact ⟨this.1, by simpa using this.2⟩
              refine ⟨?_, ?_⟩
              · rw [entryNames_cons, List.nodup_cons]
                exact ⟨fun hc => (hrest _ hc).2 rfl, hnd⟩
              · intro nm hnm
                rw [entryNames_cons] at hnm
                rcases List.mem_cons.mp hnm with rfl | hmem
                · intro hc
                  rcases List.mem_map.mp hc with ⟨x, hx, he⟩
                  exact hex (List.any_eq_true.mpr ⟨x, hx, by simp [he]⟩)
                · exact (hrest nm hmem).1

theorem processEntries_ips (data : List ClientEntry) :
    ∀ db db', processEntries db data = .ok db' →
      ∀ ip ∈ entryIps data, ¬ ip ∈ db.computers.map Computer.ip_address := by
  induction data with
  | nil => intro db db' _ ip h; simp [entryIps] at h
  | cons e rest ih =>
      intro db db' h ip hip
      simp only [processEntries] at h
      by_cases hv : (e.client.getD "" = "" ∨ ((e.computers.getD []).isEmpty : Bool))
      · rw [if_pos hv] at h; cases h
      · rw [if_neg hv] at h
        by_cases hex : (db.clients.any fun c => c.name = e.client.getD "") = true
        · rw [if_pos hex] at h; cases h
        · rw [if_neg hex] at h
          cases hins : insertComputers (addClientRow db (e.client.getD ""))
              db.nextClientId (e.computers.getD []) with
          | error f => rw [hins] at h; cases h
          | ok db2 =>
              rw [hins] at h
              rw [entryIps_cons] at hip
              rcases List.mem_append.mp hip with hmem | hmem
              · exact insertComputers_fresh _ _ _ _ hins ip hmem
              · intro hc
                refine ih _ _ h ip hmem ?_
                obtain ⟨-, -, t, ht⟩ := insertComputers_frame _ _ _ _ hins
                rw [ht]
                simp only [List.map_append, List.mem_append]
                exact .inl hc

/-! ## The rows a successful bulk-create batch appends (proof infrastructure:
closed forms of what the loops of create_clients build, used to state and
prove the round-trip) -/

/-- The computer rows one entry's loop inserts, ids counting up from
`coid`. -/
def newComputers (coid cid : Nat) : List (String × ComputerData) → List Computer
  | [] => []
  | (ip, cd) :: rest => ⟨coid, ip, cd.latency, cd.hostname, cid⟩ :: newComputers (coid + 1) cid rest

/-- The port rows one entry's loop inserts, grouped per computer. -/
def newPortRows (coid pid : Nat) : List (String × ComputerData) → List Port
  | [] => []
  | (_, cd) :: rest => mkPorts pid coid cd.ports ++ newPortRows (coid + 1) (pid + cd.ports.length) rest

/-- The client rows a bulk-create call inserts, ids counting up from
`cid`. -/
def newClientRows (cid : Nat) : List ClientEntry → List Client
  | [] => []
  | e :: rest => ⟨cid, e.client.getD ""⟩ :: newClientRows (cid + 1) rest

theorem mkPorts_mem (ps : List (String × String)) :
    ∀ pid coid, ∀ q ∈ mkPorts pid coid ps, q.computer_id = coid := by
  induction ps with
  | nil => intro pid coid q h; cases h
  | cons head rest ih =>
      obtain ⟨p, s⟩ := head
      intro pid coid q h
      rcases List.mem_cons.mp h with rfl | h
      · rfl
      · exact ih _ _ q h

theorem mkPorts_project (ps : List (String × String)) :
    ∀ pid coid, (mkPorts pid coid ps).map (fun q => (q.port_number, q.service_name)) = ps := by
  induction ps with
  | nil => intro pid coid; rfl
  | cons head rest ih =>
      obtain ⟨p, s⟩ := head
      intro pid coid
      simp only [mkPorts, List.map_cons, ih]

theorem newComputers_mem (comps : List (String × ComputerData)) :
    ∀ coid cid, ∀ m ∈ newComputers coid cid comps,
      coid ≤ m.id ∧ m.id < coid + comps.length ∧ m.client_id = cid := by
  induction comps with
  | nil => intro coid cid m h; cases h
  | cons head rest ih =>
      obtain ⟨ip, cd⟩ := head
      intro coid cid m h
      rcases List.mem_cons.mp h with rfl | h
      · exact ⟨Nat.le_refl _, by simp, rfl⟩
      · obtain ⟨h1, h2, h3⟩ := ih _ _ m h
        exact ⟨by omega, by simp only [List.length_cons]; omega, h3⟩

theorem newComputers_ips (comps : List (String × ComputerData)) :
    ∀ coid cid, (newComputers coid cid comps).map Computer.ip_address = comps.map Prod.fst := by
  induction comps with
  | nil => intro coid cid; rfl
  | cons head rest ih =>
      obtain ⟨ip, cd⟩ := head
      intro coid cid
      simp only [newComputers, List.map_cons, ih]

theorem newPortRows_mem (comps : List (String × ComputerData)) :
    ∀ coid pid, ∀ q ∈ newPortRows coid pid comps,
      coid ≤ q.computer_id ∧ q.computer_id < coid + comps.length := by
  induction comps with
  | nil => intro coid pid q h; cases h
  | cons head rest ih =>
      obtain ⟨ip, cd⟩ := head
      intro coid pid q h
      rcases List.mem_append.mp h with h | h
      · have := mkPorts_mem _ _ _ q h
        rw [this]
        exact ⟨Nat.le_refl _, by simp⟩
      · obtain ⟨h1, h2⟩ := ih _ _ q h
        exact ⟨by omega, by simp only [List.length_cons]; omega⟩

theorem newClientRows_names (data : List ClientEntry) :
    ∀ cid, (newClientRows cid data).map Client.name = entryNames data := by
  induction data with
  | nil => intro cid; rfl
  | cons e rest ih =>
      intro cid
      simp only [newClientRows, List.map_cons, ih, entryNames_cons, entryNames]

theorem newClientRows_mem (data : List ClientEntry) :
    ∀ cid, ∀ c ∈ newClientRows cid data, cid ≤ c.id ∧ c.id < cid + data.length := by
  induction data with
  | nil => intro cid c h; cases h
  | cons e rest ih =>
      intro cid c h
      rcases List.mem_cons.mp h with rfl | h
      · exact ⟨Nat.le_refl _, by simp⟩
      · obtain ⟨h1, h2⟩ := ih _ c h
        exact ⟨by omega, by simp only [List.length_cons]; omega⟩

theorem newClientRows_length (data : List ClientEntry) :
    ∀ cid, (newClientRows cid data).length = data.length := by
  induction data with
  | nil => intro cid; rfl
  | cons e rest ih => intro cid; simp [newClientRows, ih]

/-- A successful run of the computer loop, in closed form: with globally
fresh, pairwise distinct ips it appends exactly the `newComputers` and
`newPortRows` rows and advances the counters. -/
theorem insertComputers_ok (cid : Nat) (comps : List (String × ComputerData)) :
    ∀ db, (∀ ip ∈ comps.map Prod.fst, ¬ ip ∈ db.computers.map Computer.ip_address) →
      (comps.map Prod.fst).Nodup →
      insertComputers db cid comps = .ok
        { db with
          computers := db.computers ++ newComputers db.nextComputerId cid comps,
          ports := db.ports ++ newPortRows db.nextComputerId db.nextPortId comps,
          nextComputerId := db.nextComputerId + comps.length,
          nextPortId := db.nextPortId + (comps.map (fun x => x.2.ports.length)).sum } := by
  induction comps with
  | nil =>
      intro db _ _
      simp [insertComputers, newComputers, newPortRows]
  | cons head rest ih =>
      obtain ⟨ip, cd⟩ := head
      intro db hfresh hnodup
      have hany : ¬ (db.computers.any fun c => c.ip_address = ip) = true := by
        intro hc
        rcases List.any_eq_true.mp hc with ⟨m, hm, he⟩
        exact hfresh ip (by simp) (List.mem_map.mpr ⟨m, hm, by simpa using he⟩)
      simp only [insertComputers, if_neg hany]
      rw [ih]
      · refine congrArg Except.ok ?_
        rw [DB.mk.injEq]
        refine ⟨rfl, ?_, ?_, rfl, ?_, ?_⟩
        · simp only [newComputers, List.append_assoc, List.singleton_append]
        · simp only [newPortRows, List.append_assoc]
        · simp only [List.length_cons]; omega
        · simp only [List.map_cons, List.sum_cons]; omega
      · intro ip2 h2 hc
        rw [List.map_append] at hc
        rcases List.mem_append.mp hc with h | h
        · exact hfresh ip2 (by simp [h2]) h
        · rw [List.map_cons] at hnodup
          have hd := List.nodup_cons.mp hnodup
          have : ip2 = ip := by simpa using h
          exact hd.1 (this ▸ h2)
      · rw [List.map_cons] at hnodup
        exact (List.nodup_cons.mp hnodup).2

/-- Appending computer rows of other clients and port rows of other
computers does not change a client's projected tree. -/
theorem clientTree_grow (db db2 : DB) (c : Client)
    (newCs : List Computer) (newPs : List Port)
    (hc2 : db2.computers = db.computers ++ newCs) (hp2 : db2.ports = db.ports ++ newPs)
    (hnc : ∀ m ∈ newCs, ¬ m.client_id = c.id)
    (hnp : ∀ q ∈ newPs, ∀ m ∈ db.computers, ¬ q.computer_id = m.id) :
    clientTree db2 c = clientTree db c := by
  unfold clientTree
  have h1 : newCs.filter (fun m => m.client_id = c.id) = [] :=
    List.filter_eq_nil_iff.mpr (fun m hm => by simpa using hnc m hm)
  rw [hc2, hp2, List.filter_append, h1, List.append_nil]
  refine congrArg (ClientTree.mk c.name) (List.map_congr_left fun m hm => ?_)
  have hmm := List.mem_of_mem_filter hm
  have h2 : newPs.filter (fun p => p.computer_id = m.id) = [] :=
    List.filter_eq_nil_iff.mpr (fun q hq => by simpa using hnp q hq m hmm)
  rw [List.filter_append, h2, List.append_nil]

/-- The projected trees of the computer rows one bulk-create entry inserts
equal the entry's computers mapping, ports included: the coids are fresh, so
each computer's port filter returns exactly its own `mkPorts` block. -/
theorem newComputers_trees (cid : Nat) (comps : List (String × ComputerData)) :
    ∀ coid pid (ports0 : List Port), (∀ q ∈ ports0, q.computer_id < coid) →
      (newComputers coid cid comps).map (fun m =>
        ComputerTree.mk m.ip_address m.latency m.hostname
          (((ports0 ++ newPortRows coid pid comps).filter (fun p => p.computer_id = m.id)).map
            (fun p => (p.port_number, p.service_name))))
      = comps.map (fun x => ⟨x.1, x.2.latency, x.2.hostname, x.2.ports⟩) := by
  induction comps with
  | nil => intro coid pid ports0 _; rfl
  | cons head rest ih =>
      obtain ⟨ip, cd⟩ := head
      intro coid pid ports0 hlt
      simp only [newComputers, newPortRows, List.map_cons]
      refine congrArg₂ List.cons ?_ ?_
      · show ComputerTree.mk ip cd.latency cd.hostname _ = _
        refine congrArg (ComputerTree.mk ip cd.latency cd.hostname) ?_
        show (((ports0 ++ (mkPorts pid coid cd.ports ++
            newPortRows (coid + 1) (pid + cd.ports.length) rest)).filter
            (fun p => p.computer_id = coid)).map (fun p => (p.port_number, p.service_name)))
          = cd.ports
        rw [List.filter_append, List.filter_append,
          List.filter_eq_nil_iff.mpr (fun q hq => by
            have := hlt q hq
            simp only [decide_eq_true_eq]
            omega),
          List.filter_eq_self.mpr (fun q hq => by simp [mkPorts_mem _ _ _ q hq]),
          List.filter_eq_nil_iff.mpr (fun q hq => by
            have := (newPortRows_mem _ _ _ q hq).1
            simp only [decide_eq_true_eq]
            omega),
          List.nil_append, List.append_nil, mkPorts_project]
      · have hlt' : ∀ q ∈ ports0 ++ mkPorts pid coid cd.ports, q.computer_id < coid + 1 := by
          intro q hq
          rcases List.mem_append.mp hq with h | h
          · exact Nat.lt_succ_of_lt (hlt q h)
          · rw [mkPorts_mem _ _ _ q h]
            exact Nat.lt_succ_self _
        have := ih (coid + 1) (pid + cd.ports.length) (ports0 ++ mkPorts pid coid cd.ports) hlt'
        rw [← this]
        refine List.map_congr_left fun m hm => ?_
        rw [← List.append_assoc]

/-- The induction behind the round trip: on a fresh state, a bulk-create
input with valid entries, pairwise-fresh names and pairwise-fresh ips
succeeds, appends exactly the `newClientRows` with their computers and
ports, leaves every pre-existing client's projected tree unchanged, and
projects the new rows back to exactly the input entries. -/
theorem processEntries_roundtrip (data : List ClientEntry) :
    ∀ db, Fresh db →
      (∀ e ∈ data, ValidEntry e) →
      (entryNames data).Nodup →
      (∀ nm ∈ entryNames data, ¬ nm ∈ db.clients.map Client.name) →
      (entryIps data).Nodup →
      (∀ ip ∈ entryIps data, ¬ ip ∈ db.computers.map Computer.ip_address) →
      ∃ db', processEntries db data = .ok db' ∧
        Fresh db' ∧
        db'.clients = db.clients ++ newClientRows db.nextClientId data ∧
        (∀ c ∈ db.clients, clientTree db' c = clientTree db c) ∧
        ((newClientRows db.nextClientId data).map (clientTree db')) = data.map entryToTree := by
  induction data with
  | nil =>
      intro db hfr _ _ _ _ _
      exact ⟨db, rfl, hfr, by simp [newClientRows], fun c _ => rfl, rfl⟩
  | cons e rest ih =>
      intro db hfr hvalid hnames hnamesF hips hipsF
      obtain ⟨hv1, hv2⟩ := hvalid e (by simp)
      rw [entryNames_cons] at hnames hnamesF
      rw [entryIps_cons] at hips hipsF
      have hnameF0 : ¬ e.client.getD "" ∈ db.clients.map Client.name :=
        hnamesF _ (by simp)
      have hex : ¬ (db.clients.any fun c => c.name = e.client.getD "") = true := by
        intro hc
        rcases List.any_eq_true.mp hc with ⟨x, hx, he⟩
        exact hnameF0 (List.mem_map.mpr ⟨x, hx, by simpa using he⟩)
      have hkeysF : ∀ ip ∈ (e.computers.getD []).map Prod.fst,
          ¬ ip ∈ db.computers.map Computer.ip_address := fun ip h =>
        hipsF ip (List.mem_append.mpr (.inl h))
      have hkeysN : ((e.computers.getD []).map Prod.fst).Nodup :=
        (List.nodup_append.mp hips).1
      have hins := insertComputers_ok db.nextClientId (e.computers.getD [])
        (addClientRow db (e.client.getD "")) hkeysF hkeysN
      obtain ⟨f1, f2, f3⟩ := hfr
      set name := e.client.getD "" with hname
      set cid := db.nextClientId with hcid
      set coid := db.nextComputerId with hcoid
      set pid := db.nextPortId with hpid
      set comps := e.computers.getD [] with hcomps
      set newCs := newComputers coid cid comps with hnewCs
      set newPs := newPortRows coid pid comps with hnewPs
      set db2 : DB := ⟨db.clients ++ [⟨cid, name⟩], db.computers ++ newCs,
        db.ports ++ newPs, cid + 1, coid + comps.length,
        pid + (comps.map (fun x => x.2.ports.length)).sum⟩ with hdb2
      have hins2 : insertComputers (addClientRow db name) cid comps = .ok db2 := hins
      have hfr2 : Fresh db2 := by
        refine ⟨?_, ?_, ?_⟩
        · intro c hc
          show c.id < cid + 1
          have hc' : c ∈ db.clients ++ [(⟨cid, name⟩ : Client)] := hc
          rcases List.mem_append.mp hc' with h | h
          · have := f1 c h; omega
          · have he : c = ⟨cid, name⟩ := List.mem_singleton.mp h
            rw [he]; exact Nat.lt_succ_self _
        · intro m hm
          show m.id < coid + comps.length ∧ m.client_id < cid + 1
          have hm' : m ∈ db.computers ++ newCs := hm
          rcases List.mem_append.mp hm' with h | h
          · obtain ⟨ha, hb⟩ := f2 m h
            exact ⟨by omega, by omega⟩
          · obtain ⟨h1, h2, h3⟩ := newComputers_mem _ _ _ m h
            exact ⟨h2, by rw [h3]; exact Nat.lt_succ_self _⟩
        · intro q hq
          show q.computer_id < coid + comps.length
          have hq' : q ∈ db.ports ++ newPs := hq
          rcases List.mem_append.mp hq' with h | h
          · have := f3 q h; omega
          · exact (newPortRows_mem _ _ _ q h).2
      have hnamesF2 : ∀ nm ∈ entryNames rest, ¬ nm ∈ db2.clients.map Client.name := by
        intro nm hnm hc
        have hcc : nm ∈ (db.clients ++ [(⟨cid, name⟩ : Client)]).map Client.name := hc
        rw [List.map_append] at hcc
        rcases List.mem_append.mp hcc with h | h
        · exact hnamesF nm (List.mem_cons_of_mem _ hnm) h
        · have he : nm = name := by simpa using h
          exact (List.nodup_cons.mp hnames).1 (he ▸ hnm)
      have hipsF2 : ∀ ip ∈ entryIps rest, ¬ ip ∈ db2.computers.map Computer.ip_address := by
        intro ip hip hc
        have hcc : ip ∈ (db.computers ++ newCs).map Computer.ip_address := hc
        rw [List.map_append] at hcc
        rcases List.mem_append.mp hcc with h | h
        · exact hipsF ip (List.mem_append.mpr (.inr hip)) h
        · rw [hnewCs, newComputers_ips] at h
          exact (List.nodup_append.mp hips).2.2 h hip
      obtain ⟨db', hok, hfr', hcl', hpres', htrees'⟩ := ih db2 hfr2
        (fun x hx => hvalid x (List.mem_cons_of_mem _ hx))
        (List.nodup_cons.mp hnames).2 hnamesF2
        (List.nodup_append.mp hips).2.1 hipsF2
      have hpres2 : ∀ c ∈ db.clients, clientTree db2 c = clientTree db c := by
        intro c hc
        refine clientTree_grow db db2 c newCs newPs rfl rfl ?_ ?_
        · intro m hm
          rw [(newComputers_mem _ _ _ m hm).2.2]
          have := f1 c hc
          omega
        · intro q hq m hm
          have h1 := (newPortRows_mem _ _ _ q hq).1
          have h2 := (f2 m hm).1
          omega
      have hnew0 : clientTree db2 ⟨cid, name⟩ = entryToTree e := by
        unfold clientTree
        show ClientTree.mk name _ = _
        rw [hdb2]
        show ClientTree.mk name (((db.computers ++ newCs).filter
          (fun m => m.client_id = cid)).map _) = _
        rw [List.filter_append,
          List.filter_eq_nil_iff.mpr (fun m hm => by
            have := (f2 m hm).2
            simp only [decide_eq_true_eq]
            omega),
          List.filter_eq_self.mpr (fun m hm => by
            simp [(newComputers_mem _ _ _ m hm).2.2]),
          List.nil_append]
        rw [entryToTree, ← hname, ← hcomps]
        exact congrArg (ClientTree.mk name)
          (newComputers_trees cid comps coid pid db.ports f3)
      refine ⟨db', ?_, hfr', ?_, ?_, ?_⟩
      · simp only [processEntries]
        rw [if_neg (by simpa using ⟨hv1, fun hc => hv2 (by simpa using hc)⟩),
          if_neg hex, hins2]
        exact hok
      · rw [hcl', hdb2]
        show (db.clients ++ [⟨cid, name⟩]) ++ newClientRows (cid + 1) rest
          = db.clients ++ newClientRows cid (e :: rest)
        rw [List.append_assoc]
        rfl
      · intro c hc
        rw [hpres' c (by rw [hdb2]; exact List.mem_append.mpr (.inl hc))]
        exact hpres2 c hc
      · show clientTree db' ⟨cid, name⟩ :: ((newClientRows (cid + 1) rest).map (clientTree db'))
          = entryToTree e :: rest.map entryToTree
        refine congrArg₂ List.cons ?_ htrees'
        rw [hpres' ⟨cid, name⟩ (by rw [hdb2]; exact List.mem_append.mpr (.inr (by simp)))]
        exact hnew0

/-- C3 (confirmed): bulk-create of valid entries with pairwise-distinct,
globally fresh client names and ips (a nested client tree it accepts on a
disjoint persisted state) succeeds, and list-all immediately afterwards
returns the pre-existing clients' trees unchanged followed by exactly the
input tree — every port of every computer of every client included. From
the empty state the pre-existing part is `[]`, so list-all returns exactly
`data.map entryToTree`; the model preserves mapping order, so equality is
literal rather than merely modulo key ordering. -/
theorem c3_bulk_create_roundtrip (db : DB) (data : List ClientEntry)
    (hfr : Fresh db) (hne : ¬ data = [])
    (hvalid : ∀ e ∈ data, ValidEntry e)
    (hnames : (entryNames data).Nodup)
    (hnamesF : ∀ nm ∈ entryNames data, ¬ nm ∈ db.clients.map Client.name)
    (hips : (entryIps data).Nodup)
    (hipsF : ∀ ip ∈ entryIps data, ¬ ip ∈ db.computers.map Computer.ip_address) :
    ∃ db', create_clients db data =
        (.success "Clients and computers created successfully", db') ∧
      get_all_clients db' =
        .trees (db.clients.map (clientTree db) ++ data.map entryToTree) := by
  obtain ⟨db', hok, hfr', hcl', hpres', htrees'⟩ :=
    processEntries_roundtrip data db hfr hvalid hnames hnamesF hips hipsF
  refine ⟨db', ?_, ?_⟩
  · unfold create_clients
    rw [hok]
  · unfold get_all_clients
    rw [hcl']
    have hlen : ¬ ((db.clients ++ newClientRows db.nextClientId data).isEmpty = true) := by
      cases data with
      | nil => exact absurd rfl hne
      | cons e rest => simp [newClientRows]
    rw [if_neg hlen]
    refine congrArg ListAllResult.trees ?_
    rw [List.map_append]
    refine congrArg₂ (· ++ ·) ?_ htrees'
    exact List.map_congr_left fun c hc => hpres' c hc

/-- C3 witness: bulk-creating `[acmeEntry, betaEntry]` on the empty state
and listing the result. -/
theorem c3_bulk_create_roundtrip_witness :
    ∃ db', create_clients emptyDB [acmeEntry, betaEntry] =
        (.success "Clients and computers created successfully", db') ∧
      get_all_clients db' =
        .trees (emptyDB.clients.map (clientTree emptyDB) ++
          [acmeEntry, betaEntry].map entryToTree) :=
  c3_bulk_create_roundtrip emptyDB [acmeEntry, betaEntry] (by decide) (by decide)
    (by decide) (by decide) (by decide) (by decide) (by decide)

/-! ## Lemmas on the update loop -/

/-- The (ip_address, client_id) key of each computer row, in order: the
pair the scoped lookup of update_client line 147 filters on. -/
def compKeys (l : List Computer) : List (String × Nat) :=
  l.map fun c => (c.ip_address, c.client_id)

theorem replaceFirst_compKeys (p : Computer → Bool) (cd : ComputerData)
    (l : List Computer) :
    compKeys (replaceFirst p (mergeComputer cd) l) = compKeys l := by
  induction l with
  | nil => rfl
  | cons a rest ih =>
      simp only [replaceFirst]
      by_cases h : p a = true
      · rw [if_pos h]; rfl
      · rw [if_neg h]
        simp only [compKeys, List.map_cons] at *
        rw [ih]

theorem upsertPorts_frame (coid : Nat) (ps : List (String × String)) :
    ∀ db, (upsertPorts db coid ps).clients = db.clients ∧
      (upsertPorts db coid ps).computers = db.computers ∧
      (upsertPorts db coid ps).nextClientId = db.nextClientId ∧
      (upsertPorts db coid ps).nextComputerId = db.nextComputerId := by
  induction ps with
  | nil => intro db; exact ⟨rfl, rfl, rfl, rfl⟩
  | cons head rest ih =>
      obtain ⟨p, s⟩ := head
      intro db
      simp only [upsertPorts]
      by_cases h : (db.ports.any fun q => q.computer_id = coid ∧ q.port_number = p) = true
      · rw [if_pos h]; exact ih _
      · rw [if_neg h]; exact ih _

theorem applyComputers_newIp (cid : Nat) (X : String)
    (pcs : List (String × ComputerData)) :
    ∀ db cdX, ((X, cdX) : String × ComputerData) ∈ pcs →
      ¬ (X, cid) ∈ compKeys db.computers →
      X ∈ (applyComputers db cid pcs).2 := by
  induction pcs with
  | nil => intro db cdX h _; cases h
  | cons head rest ih =>
      obtain ⟨ip, cd⟩ := head
      intro db cdX hmem hkey
      simp only [applyComputers]
      cases hf : db.computers.find? (fun c => c.ip_address = ip ∧ c.client_id = cid) with
      | some comp =>
          have hcm : comp ∈ db.computers := List.mem_of_find?_eq_some hf
          have hcp : comp.ip_address = ip ∧ comp.client_id = cid := by
            simpa using List.find?_some hf
          have hipX : ¬ ip = X := by
            intro he
            exact hkey (List.mem_map.mpr ⟨comp, hcm, by rw [hcp.1, hcp.2, he]⟩)
          have hrest : ((X, cdX) : String × ComputerData) ∈ rest := by
            rcases List.mem_cons.mp hmem with he | h
            · exact absurd (congrArg Prod.fst he).symm hipX
            · exact h
          have hkey2 : ¬ (X, cid) ∈ compKeys (upsertPorts { db with computers := replaceFirst (fun c => c.ip_address = ip ∧ c.client_id = cid) (mergeComputer cd) db.computers } comp.id cd.ports).computers := by
            rw [(upsertPorts_frame _ _ _).2.1]
            show ¬ _ ∈ compKeys (replaceFirst _ _ db.computers)
            rw [replaceFirst_compKeys]
            exact hkey
          exact ih _ _ hrest hkey2
      | none =>
          by_cases hip : ip = X
          · subst hip
            exact List.mem_cons_self _ _
          · have hrest : ((X, cdX) : String × ComputerData) ∈ rest := by
              rcases List.mem_cons.mp hmem with he | h
              · exact absurd (congrArg Prod.fst he).symm hip
              · exact h
            have hkey2 : ¬ (X, cid) ∈ compKeys
                (db.computers ++ [⟨db.nextComputerId, ip, cd.latency, cd.hostname, cid⟩]) := by
              intro hk
              rw [compKeys, List.map_append] at hk
              rcases List.mem_append.mp hk with h | h
              · exact hkey h
              · have he : ((X, cid) : String × Nat) = (ip, cid) := by simpa using h
                exact hip (congrArg Prod.fst he).symm
            exact List.mem_cons_of_mem _ (ih _ _ hrest hkey2)

theorem firstDupIp_some (X : String) (news : List String) :
    ∀ existing, X ∈ news → X ∈ existing →
      ∃ ip, firstDupIp existing news = some ip := by
  induction news with
  | nil => intro ex h _; cases h
  | cons ip0 rest ih =>
      intro existing hX hex
      simp only [firstDupIp]
      by_cases h : ip0 ∈ existing
      · rw [if_pos h]; exact ⟨ip0, rfl⟩
      · rw [if_neg h]
        rcases List.mem_cons.mp hX with rfl | hmem
        · exact absurd hex h
        · exact ih _ hmem (List.mem_append.mpr (.inl hex))

/-! ## Stability lemmas for the upsert paths (used for idempotence) -/

theorem replaceFirst_of_fix (p : α → Bool) (f : α → α) :
    ∀ l a, l.find? p = some a → f a = a → replaceFirst p f l = l := by
  intro l
  induction l with
  | nil => intro a h _; cases h
  | cons x rest ih =>
      intro a h hfix
      by_cases hx : p x = true
      · rw [List.find?_cons_of_pos _ hx] at h
        cases h
        simp only [replaceFirst, if_pos hx, hfix]
      · rw [List.find?_cons_of_neg _ hx] at h
        simp only [replaceFirst, if_neg hx]
        rw [ih a h hfix]

theorem replaceFirst_compIds (p : Computer → Bool) (cd : ComputerData)
    (l : List Computer) :
    (replaceFirst p (mergeComputer cd) l).map Computer.id = l.map Computer.id := by
  induction l with
  | nil => rfl
  | cons a rest ih =>
      simp only [replaceFirst]
      by_cases h : p a = true
      · rw [if_pos h]; rfl
      · rw [if_neg h]
        simp only [List.map_cons, ih]

theorem mergeComputer_idem (cd : ComputerData) (c : Computer) :
    mergeComputer cd (mergeComputer cd c) = mergeComputer cd c := by
  cases hl : cd.latency <;> cases hh : cd.hostname <;>
    simp [mergeComputer, hl, hh]

/-- Merging the first computer matching one scoped lookup does not change
the outcome of a lookup for a different ip under the same client. -/
theorem replaceFirst_merge_find?_other (cd : ComputerData) (ipr ip : String)
    (cid : Nat) (hne : ¬ ip = ipr) :
    ∀ l : List Computer,
      (replaceFirst (fun c => c.ip_address = ipr ∧ c.client_id = cid)
        (mergeComputer cd) l).find? (fun c => c.ip_address = ip ∧ c.client_id = cid)
      = l.find? (fun c => c.ip_address = ip ∧ c.client_id = cid) := by
  intro l
  induction l with
  | nil => rfl
  | cons x rest ih =>
      simp only [replaceFirst]
      by_cases hx : (decide (x.ip_address = ipr ∧ x.client_id = cid)) = true
      · rw [if_pos hx]
        have hxr : x.ip_address = ipr := (of_decide_eq_true hx).1
        have hnx : (decide (x.ip_address = ip ∧ x.client_id = cid)) = false := by
          simp only [decide_eq_false_iff_not, not_and]
          intro hc
          exact absurd (hc ▸ hxr) hne
        have hnm : (decide ((mergeComputer cd x).ip_address = ip ∧
            (mergeComputer cd x).client_id = cid)) = false := hnx
        simp only [List.find?_cons, hnm, hnx]
      · rw [if_neg hx]
        by_cases hp : (decide (x.ip_address = ip ∧ x.client_id = cid)) = true
        · simp only [List.find?_cons, hp]
        · have hp' : (decide (x.ip_address = ip ∧ x.client_id = cid)) = false :=
            Bool.not_eq_true _ ▸ hp
          simp only [List.find?_cons, hp', ih]

/-- Merging the first computer matching a scoped lookup makes that lookup
return the merged row. -/
theorem replaceFirst_merge_find?_same (cd : ComputerData) (ip : String) (cid : Nat) :
    ∀ (l : List Computer) m,
      l.find? (fun c => c.ip_address = ip ∧ c.client_id = cid) = some m →
      (replaceFirst (fun c => c.ip_address = ip ∧ c.client_id = cid)
        (mergeComputer cd) l).find? (fun c => c.ip_address = ip ∧ c.client_id = cid)
      = some (mergeComputer cd m) := by
  intro l
  induction l with
  | nil => intro m h; cases h
  | cons x rest ih =>
      intro m h
      by_cases hx : (decide (x.ip_address = ip ∧ x.client_id = cid)) = true
      · simp only [List.find?_cons, hx] at h
        cases h
        simp only [replaceFirst, if_pos hx]
        have hm : (decide ((mergeComputer cd x).ip_address = ip ∧
            (mergeComputer cd x).client_id = cid)) = true := hx
        simp only [List.find?_cons, hm]
      · have hx' : (decide (x.ip_address = ip ∧ x.client_id = cid)) = false :=
          Bool.not_eq_true _ ▸ hx
        simp only [List.find?_cons, hx'] at h
        simp only [replaceFirst, if_neg hx]
        simp only [List.find?_cons, hx', ih m h]

/-- Overwriting the service of the first row of one (computer, port) key
does not change the lookup of a different key. -/
theorem replaceFirst_service_find?_other (s : String) (coid' : Nat) (pn' : String)
    (coid : Nat) (pn : String) (hne : ¬ (coid = coid' ∧ pn = pn')) :
    ∀ l : List Port,
      (replaceFirst (fun q => q.computer_id = coid' ∧ q.port_number = pn')
        (fun q => { q with service_name := s }) l).find?
        (fun q => q.computer_id = coid ∧ q.port_number = pn)
      = l.find? (fun q => q.computer_id = coid ∧ q.port_number = pn) := by
  intro l
  induction l with
  | nil => rfl
  | cons x rest ih =>
      simp only [replaceFirst]
      by_cases hx : (decide (x.computer_id = coid' ∧ x.port_number = pn')) = true
      · rw [if_pos hx]
        obtain ⟨hx1, hx2⟩ := of_decide_eq_true hx
        have hnx : (decide (x.computer_id = coid ∧ x.port_number = pn)) = false := by
          simp only [decide_eq_false_iff_not, not_and]
          intro h1 h2
          exact hne ⟨by rw [← h1, hx1], by rw [← h2, hx2]⟩
        have hnm : (decide (({ x with service_name := s } : Port).computer_id = coid ∧
            ({ x with service_name := s } : Port).port_number = pn)) = false := hnx
        simp only [List.find?_cons, hnm, hnx]
      · rw [if_neg hx]
        by_cases hp : (decide (x.computer_id = coid ∧ x.port_number = pn)) = true
        · simp only [List.find?_cons, hp]
        · have hp' : (decide (x.computer_id = coid ∧ x.port_number = pn)) = false :=
            Bool.not_eq_true _ ▸ hp
          simp only [List.find?_cons, hp', ih]

/-- Overwriting the service of the first row of a key makes the lookup of
that key return the overwritten row. -/
theorem replaceFirst_service_find?_same (s : String) (coid : Nat) (pn : String) :
    ∀ (l : List Port) q,
      l.find? (fun r => r.computer_id = coid ∧ r.port_number = pn) = some q →
      (replaceFirst (fun r => r.computer_id = coid ∧ r.port_number = pn)
        (fun r => { r with service_name := s }) l).find?
        (fun r => r.computer_id = coid ∧ r.port_number = pn)
      = some { q with service_name := s } := by
  intro l
  induction l with
  | nil => intro q h; cases h
  | cons x rest ih =>
      intro q h
      by_cases hx : (decide (x.computer_id = coid ∧ x.port_number = pn)) = true
      · simp only [List.find?_cons, hx] at h
        cases h
        simp only [replaceFirst, if_pos hx]
        have hm : (decide (({ x with service_name := s } : Port).computer_id = coid ∧
            ({ x with service_name := s } : Port).port_number = pn)) = true := hx
        simp only [List.find?_cons, hm]
      · have hx' : (decide (x.computer_id = coid ∧ x.port_number = pn)) = false :=
          Bool.not_eq_true _ ▸ hx
        simp only [List.find?_cons, hx'] at h
        simp only [replaceFirst, if_neg hx]
        simp only [List.find?_cons, hx', ih q h]

/-- An upsert loop whose keys all differ from (coid, pn) does not change
the (coid, pn) lookup. -/
theorem upsertPorts_frame_find (ps : List (String × String)) :
    ∀ db (coid' coid : Nat) (pn : String),
      (∀ x ∈ ps, ¬ (coid = coid' ∧ pn = x.1)) →
      (upsertPorts db coid' ps).ports.find?
        (fun q => q.computer_id = coid ∧ q.port_number = pn)
      = db.ports.find? (fun q => q.computer_id = coid ∧ q.port_number = pn) := by
  induction ps with
  | nil => intro db coid' coid pn _; rfl
  | cons head rest ih =>
      obtain ⟨p, s⟩ := head
      intro db coid' coid pn hne
      simp only [upsertPorts]
      by_cases hany : (db.ports.any fun q => q.computer_id = coid' ∧ q.port_number = p) = true
      · rw [if_pos hany,
          ih _ _ _ _ (fun x hx => hne x (List.mem_cons_of_mem _ hx)),
          replaceFirst_service_find?_other s coid' p coid pn (hne (p, s) (by simp))]
      · rw [if_neg hany,
          ih _ _ _ _ (fun x hx => hne x (List.mem_cons_of_mem _ hx))]
        show (db.ports ++ [(⟨db.nextPortId, p, s, coid'⟩ : Port)]).find? _ = _
        rw [List.find?_append]
        cases hf : db.ports.find? (fun q => q.computer_id = coid ∧ q.port_number = pn) with
        | some q => rfl
        | none =>
            have hnr : (decide (coid' = coid ∧ p = pn)) = false := by
              simp only [decide_eq_false_iff_not, not_and]
              intro h1 h2
              exact hne (p, s) (by simp) ⟨h1.symm, h2.symm⟩
            simp only [Option.none_or, List.find?_cons, List.find?_nil]
            have hred : (decide ((⟨db.nextPortId, p, s, coid'⟩ : Port).computer_id = coid ∧
                (⟨db.nextPortId, p, s, coid'⟩ : Port).port_number = pn)) = false := hnr
            rw [hred]

/-- After the upsert loop (with distinct port keys, as a Python dict
guarantees), every key of the loop resolves to a row carrying the loop's
service value. -/
theorem upsertPorts_sets (ps : List (String × String)) :
    ∀ db (coid : Nat), (ps.map Prod.fst).Nodup →
      ∀ x ∈ ps, ∃ q, (upsertPorts db coid ps).ports.find?
          (fun r => r.computer_id = coid ∧ r.port_number = x.1) = some q ∧
        q.service_name = x.2 := by
  induction ps with
  | nil => intro db coid _ x hx; cases hx
  | cons head rest ih =>
      obtain ⟨p, s⟩ := head
      intro db coid hnodup x hx
      rw [List.map_cons, List.nodup_cons] at hnodup
      rcases List.mem_cons.mp hx with rfl | hxr
      · -- the head key: set by this step, framed by the rest of the loop
        simp only [upsertPorts]
        by_cases hany : (db.ports.any fun q => q.computer_id = coid ∧ q.port_number = p) = true
        · rw [if_pos hany]
          have hsome : (db.ports.find?
              (fun r => r.computer_id = coid ∧ r.port_number = p)).isSome := by
            rw [List.find?_isSome]
            rcases List.any_eq_true.mp hany with ⟨q, hq, hpq⟩
            exact ⟨q, hq, hpq⟩
          obtain ⟨q0, hq0⟩ := Option.isSome_iff_exists.mp hsome
          refine ⟨{ q0 with service_name := s }, ?_, rfl⟩
          rw [upsertPorts_frame_find rest _ _ _ _
            (fun y hy hc => hnodup.1 (List.mem_map.mpr ⟨y, hy, hc.2.symm⟩))]
          show (replaceFirst _ _ db.ports).find? _ = _
          exact replaceFirst_service_find?_same s coid p db.ports q0 hq0
        · rw [if_neg hany]
          refine ⟨⟨db.nextPortId, p, s, coid⟩, ?_, rfl⟩
          rw [upsertPorts_frame_find rest _ _ _ _
            (fun y hy hc => hnodup.1 (List.mem_map.mpr ⟨y, hy, hc.2.symm⟩))]
          show (db.ports ++ [(⟨db.nextPortId, p, s, coid⟩ : Port)]).find? _ = _
          rw [List.find?_append, List.find?_eq_none.mpr
            (fun q hq hpq => hany (List.any_eq_true.mpr ⟨q, hq, hpq⟩))]
          simp
      · -- a key of the rest of the loop
        simp only [upsertPorts]
        by_cases hany : (db.ports.any fun q => q.computer_id = coid ∧ q.port_number = p) = true
        · rw [if_pos hany]
          exact ih _ _ hnodup.2 x hxr
        · rw [if_neg hany]
          exact ih _ _ hnodup.2 x hxr

/-- An upsert loop whose every key already resolves to a row carrying the
loop's service value changes nothing. -/
theorem upsertPorts_id (ps : List (String × String)) :
    ∀ db (coid : Nat),
      (∀ x ∈ ps, ∃ q, db.ports.find?
          (fun r => r.computer_id = coid ∧ r.port_number = x.1) = some q ∧
        q.service_name = x.2) →
      upsertPorts db coid ps = db := by
  induction ps with
  | nil => intro db coid _; rfl
  | cons head rest ih =>
      obtain ⟨p, s⟩ := head
      intro db coid hall
      obtain ⟨q, hq, hqs⟩ := hall (p, s) (by simp)
      have hany : (db.ports.any fun r => r.computer_id = coid ∧ r.port_number = p) = true := by
        rw [List.any_eq_true]
        have hpq := List.find?_some hq
        exact ⟨q, List.mem_of_find?_eq_some hq, hpq⟩
      have hfix : ({ q with service_name := s } : Port) = q := by
        cases q
        simp_all
      have hrep : replaceFirst (fun r => r.computer_id = coid ∧ r.port_number = p)
          (fun r => { r with service_name := s }) db.ports = db.ports :=
        replaceFirst_of_fix _ _ db.ports q hq hfix
      simp only [upsertPorts, if_pos hany, hrep]
      exact ih db coid (fun x hx => hall x (List.mem_cons_of_mem _ hx))

/-- A patch whose every ip (distinct, as dict keys are) resolves to a
computer of the target client takes only then-branches: it adds no
computer, returns no pending ip, keeps the client rows and the computer
keys/ids, preserves scoped lookups of ips outside the patch, and preserves
port lookups of every computer the patch does not touch. -/
theorem applyComputers_then (cid : Nat) (pcs : List (String × ComputerData)) :
    ∀ db, (pcs.map Prod.fst).Nodup →
      (∀ x ∈ pcs, ∃ m, db.computers.find?
        (fun c => c.ip_address = x.1 ∧ c.client_id = cid) = some m) →
      (applyComputers db cid pcs).2 = [] ∧
      (applyComputers db cid pcs).1.clients = db.clients ∧
      (∀ ip, ¬ ip ∈ pcs.map Prod.fst →
        (applyComputers db cid pcs).1.computers.find?
          (fun c => c.ip_address = ip ∧ c.client_id = cid)
        = db.computers.find? (fun c => c.ip_address = ip ∧ c.client_id = cid)) ∧
      compKeys (applyComputers db cid pcs).1.computers = compKeys db.computers ∧
      (applyComputers db cid pcs).1.computers.map Computer.id
        = db.computers.map Computer.id ∧
      (∀ coid pn, (∀ x ∈ pcs, ∀ m, db.computers.find?
          (fun c => c.ip_address = x.1 ∧ c.client_id = cid) = some m → ¬ m.id = coid) →
        (applyComputers db cid pcs).1.ports.find?
          (fun r => r.computer_id = coid ∧ r.port_number = pn)
        = db.ports.find? (fun r => r.computer_id = coid ∧ r.port_number = pn)) := by
  induction pcs with
  | nil =>
      intro db _ _
      exact ⟨rfl, rfl, fun ip _ => rfl, rfl, rfl, fun coid pn _ => rfl⟩
  | cons head rest ih =>
      obtain ⟨ip, cd⟩ := head
      intro db hnodup hthen
      rw [List.map_cons, List.nodup_cons] at hnodup
      obtain ⟨m0, hm0⟩ := hthen (ip, cd) (by simp)
      simp only [applyComputers]
      rw [hm0]
      have hm0mem : m0 ∈ db.computers := List.mem_of_find?_eq_some hm0
      have hm0pred0 := List.find?_some hm0
      have hm0pred := of_decide_eq_true hm0pred0
      set db1 : DB := { db with computers := replaceFirst (fun c => c.ip_address = ip ∧ c.client_id = cid) (mergeComputer cd) db.computers } with hdb1
      set dbU : DB := upsertPorts db1 m0.id cd.ports with hdbU
      have hUc : dbU.computers = replaceFirst
          (fun c => c.ip_address = ip ∧ c.client_id = cid) (mergeComputer cd) db.computers :=
        (upsertPorts_frame _ _ _).2.1
      have hUcl : dbU.clients = db.clients := (upsertPorts_frame _ _ _).1
      have hpres : ∀ ip2, ¬ ip2 = ip →
          dbU.computers.find? (fun c => c.ip_address = ip2 ∧ c.client_id = cid)
          = db.computers.find? (fun c => c.ip_address = ip2 ∧ c.client_id = cid) := by
        intro ip2 hne
        rw [hUc]
        exact replaceFirst_merge_find?_other cd ip ip2 cid hne db.computers
      have hthen2 : ∀ x ∈ rest, ∃ m, dbU.computers.find?
          (fun c => c.ip_address = x.1 ∧ c.client_id = cid) = some m := by
        intro x hx
        obtain ⟨m, hm⟩ := hthen x (List.mem_cons_of_mem _ hx)
        refine ⟨m, ?_⟩
        rw [hpres x.1 (fun he => hnodup.1 (List.mem_map.mpr ⟨x, hx, he⟩)), hm]
      obtain ⟨i1, i2, i3, i4, i5, i6⟩ := ih dbU hnodup.2 hthen2
      refine ⟨i1, by rw [i2, hUcl], ?_, ?_, ?_, ?_⟩
      · intro ip2 hip2
        rw [List.map_cons] at hip2
        have hne : ¬ ip2 = ip := fun he => hip2 (he ▸ List.mem_cons_self _ _)
        rw [i3 ip2 (fun hm => hip2 (List.mem_cons_of_mem _ hm)), hpres ip2 hne]
      · rw [i4, hUc, replaceFirst_compKeys]
      · rw [i5, hUc, replaceFirst_compIds]
      · intro coid pn hcoid
        have hm0id : ¬ m0.id = coid := hcoid (ip, cd) (by simp) m0 hm0
        have hUp : dbU.ports.find? (fun r => r.computer_id = coid ∧ r.port_number = pn)
            = db.ports.find? (fun r => r.computer_id = coid ∧ r.port_number = pn) := by
          rw [hdbU]
          exact upsertPorts_frame_find cd.ports db1 m0.id coid pn
            (fun y hy hc => hm0id hc.1.symm)
        rw [i6 coid pn ?_, hUp]
        intro x hx m hm
        rw [hpres x.1 (fun he => hnodup.1 (List.mem_map.mpr ⟨x, hx, he⟩))] at hm
        exact hcoid x (List.mem_cons_of_mem _ hx) m hm

/-- After the loop, every port key of every patch entry resolves, under the
entry's computer, to a row carrying the patch's service value. -/
theorem applyComputers_sets (cid : Nat) (pcs : List (String × ComputerData)) :
    ∀ db, (pcs.map Prod.fst).Nodup →
      (∀ x ∈ pcs, (x.2.ports.map Prod.fst).Nodup) →
      (∀ x ∈ pcs, ∃ m, db.computers.find?
        (fun c => c.ip_address = x.1 ∧ c.client_id = cid) = some m) →
      (db.computers.map Computer.id).Nodup →
      ∀ x ∈ pcs, ∀ m, db.computers.find?
          (fun c => c.ip_address = x.1 ∧ c.client_id = cid) = some m →
        ∀ y ∈ x.2.ports, ∃ q, (applyComputers db cid pcs).1.ports.find?
            (fun r => r.computer_id = m.id ∧ r.port_number = y.1) = some q ∧
          q.service_name = y.2 := by
  induction pcs with
  | nil => intro db _ _ _ _ x hx; cases hx
  | cons head rest ih =>
      obtain ⟨ip, cd⟩ := head
      intro db hnodup hports hthen hids x hx m hm y hy
      rw [List.map_cons, List.nodup_cons] at hnodup
      obtain ⟨m0, hm0⟩ := hthen (ip, cd) (by simp)
      simp only [applyComputers]
      rw [hm0]
      have hm0mem : m0 ∈ db.computers := List.mem_of_find?_eq_some hm0
      have hm0pred0 := List.find?_some hm0
      have hm0pred := of_decide_eq_true hm0pred0
      set db1 : DB := { db with computers := replaceFirst (fun c => c.ip_address = ip ∧ c.client_id = cid) (mergeComputer cd) db.computers } with hdb1
      set dbU : DB := upsertPorts db1 m0.id cd.ports with hdbU
      have hUc : dbU.computers = replaceFirst
          (fun c => c.ip_address = ip ∧ c.client_id = cid) (mergeComputer cd) db.computers :=
        (upsertPorts_frame _ _ _).2.1
      have hUids : dbU.computers.map Computer.id = db.computers.map Computer.id := by
        rw [hUc, replaceFirst_compIds]
      have hpres : ∀ ip2, ¬ ip2 = ip →
          dbU.computers.find? (fun c => c.ip_address = ip2 ∧ c.client_id = cid)
          = db.computers.find? (fun c => c.ip_address = ip2 ∧ c.client_id = cid) := by
        intro ip2 hne
        rw [hUc]
        exact replaceFirst_merge_find?_other cd ip ip2 cid hne db.computers
      have hthen2 : ∀ x2 ∈ rest, ∃ m2, dbU.computers.find?
          (fun c => c.ip_address = x2.1 ∧ c.client_id = cid) = some m2 := by
        intro x2 hx2
        obtain ⟨m2, hm2⟩ := hthen x2 (List.mem_cons_of_mem _ hx2)
        refine ⟨m2, ?_⟩
        rw [hpres x2.1 (fun he => hnodup.1 (List.mem_map.mpr ⟨x2, hx2, he⟩)), hm2]
      rcases List.mem_cons.mp hx with rfl | hxr
      · -- x is the head entry: its values are set here and framed by the rest
        have hmm0 : m = m0 := by
          rw [hm0] at hm
          exact (Option.some.inj hm).symm
        subst hmm0
        obtain ⟨q, hq, hqs⟩ := upsertPorts_sets cd.ports db1 m.id
          (hports (ip, cd) (by simp)) y hy
        refine ⟨q, ?_, hqs⟩
        obtain ⟨-, -, -, -, -, p6⟩ := applyComputers_then cid rest dbU hnodup.2 hthen2
        rw [p6 m.id y.1 ?_]
        · exact hq
        · intro x2 hx2 m2 hm2
          rw [hpres x2.1 (fun he => hnodup.1 (List.mem_map.mpr ⟨x2, hx2, he⟩))] at hm2
          have hm2mem : m2 ∈ db.computers := List.mem_of_find?_eq_some hm2
          have hm2pred0 := List.find?_some hm2
          have hm2pred := of_decide_eq_true hm2pred0
          intro hid
          have : m2 = m := List.inj_on_of_nodup_map hids hm2mem hm0mem hid
          have : m2.ip_address = ip := by rw [this, hm0pred.1]
          exact hnodup.1 (List.mem_map.mpr ⟨x2, hx2, by rw [← hm2pred.1]; exact this⟩)
      · -- x is in the rest of the patch
        have hmU : dbU.computers.find?
            (fun c => c.ip_address = x.1 ∧ c.client_id = cid) = some m := by
          rw [hpres x.1 (fun he => hnodup.1 (List.mem_map.mpr ⟨x, hxr, he⟩)), hm]
        exact ih dbU hnodup.2 (fun x2 hx2 => hports x2 (List.mem_cons_of_mem _ hx2))
          hthen2 (hUids ▸ hids) x hxr m hmU y hy

/-- Running a pure-update patch (every ip of the distinct keys resolves to
a computer of the target client) a second time is a no-op: the merge is
idempotent and every port upsert finds the value it wrote the first
time. -/
theorem applyComputers_idem (cid : Nat) (pcs : List (String × ComputerData)) :
    ∀ db, (pcs.map Prod.fst).Nodup →
      (∀ x ∈ pcs, (x.2.ports.map Prod.fst).Nodup) →
      (∀ x ∈ pcs, ∃ m, db.computers.find?
        (fun c => c.ip_address = x.1 ∧ c.client_id = cid) = some m) →
      (db.computers.map Computer.id).Nodup →
      applyComputers (applyComputers db cid pcs).1 cid pcs
        = ((applyComputers db cid pcs).1, []) := by
  induction pcs with
  | nil => intro db _ _ _ _; rfl
  | cons head rest ih =>
      obtain ⟨ip, cd⟩ := head
      intro db hnodup hports hthen hids
      rw [List.map_cons, List.nodup_cons] at hnodup
      obtain ⟨m0, hm0⟩ := hthen (ip, cd) (by simp)
      have hm0mem : m0 ∈ db.computers := List.mem_of_find?_eq_some hm0
      have hm0pred0 := List.find?_some hm0
      have hm0pred := of_decide_eq_true hm0pred0
      simp only [applyComputers]
      rw [hm0]
      set db1 : DB := { db with computers := replaceFirst (fun c => c.ip_address = ip ∧ c.client_id = cid) (mergeComputer cd) db.computers } with hdb1
      set dbU : DB := upsertPorts db1 m0.id cd.ports with hdbU
      have hUc : dbU.computers = replaceFirst
          (fun c => c.ip_address = ip ∧ c.client_id = cid) (mergeComputer cd) db.computers :=
        (upsertPorts_frame _ _ _).2.1
      have hUids : dbU.computers.map Computer.id = db.computers.map Computer.id := by
        rw [hUc, replaceFirst_compIds]
      have hpres : ∀ ip2, ¬ ip2 = ip →
          dbU.computers.find? (fun c => c.ip_address = ip2 ∧ c.client_id = cid)
          = db.computers.find? (fun c => c.ip_address = ip2 ∧ c.client_id = cid) := by
        intro ip2 hne
        rw [hUc]
        exact replaceFirst_merge_find?_other cd ip ip2 cid hne db.computers
      have hthen2 : ∀ x ∈ rest, ∃ m, dbU.computers.find?
          (fun c => c.ip_address = x.1 ∧ c.client_id = cid) = some m := by
        intro x hx
        obtain ⟨m, hm⟩ := hthen x (List.mem_cons_of_mem _ hx)
        refine ⟨m, ?_⟩
        rw [hpres x.1 (fun he => hnodup.1 (List.mem_map.mpr ⟨x, hx, he⟩)), hm]
      obtain ⟨-, -, p3, -, -, p6⟩ := applyComputers_then cid rest dbU hnodup.2 hthen2
      have hfrR : (applyComputers dbU cid rest).1.computers.find?
          (fun c => c.ip_address = ip ∧ c.client_id = cid) = some (mergeComputer cd m0) := by
        rw [p3 ip hnodup.1, hUc]
        exact replaceFirst_merge_find?_same cd ip cid db.computers m0 hm0
      rw [hfrR]
      have hfix : mergeComputer cd (mergeComputer cd m0) = mergeComputer cd m0 :=
        mergeComputer_idem cd m0
      have hrep : replaceFirst (fun c => c.ip_address = ip ∧ c.client_id = cid)
          (mergeComputer cd) (applyComputers dbU cid rest).1.computers
          = (applyComputers dbU cid rest).1.computers :=
        replaceFirst_of_fix _ _ _ (mergeComputer cd m0) hfrR hfix
      have hvals : ∀ y ∈ cd.ports, ∃ q, (applyComputers dbU cid rest).1.ports.find?
          (fun r => r.computer_id = (mergeComputer cd m0).id ∧ r.port_number = y.1)
            = some q ∧ q.service_name = y.2 := by
        intro y hy
        obtain ⟨q, hq, hqs⟩ := upsertPorts_sets cd.ports db1 m0.id
          (hports (ip, cd) (by simp)) y hy
        refine ⟨q, ?_, hqs⟩
        show (applyComputers dbU cid rest).1.ports.find?
          (fun r => r.computer_id = m0.id ∧ r.port_number = y.1) = some q
        rw [p6 m0.id y.1 ?_]
        · exact hq
        · intro x2 hx2 m2 hm2
          rw [hpres x2.1 (fun he => hnodup.1 (List.mem_map.mpr ⟨x2, hx2, he⟩))] at hm2
          have hm2mem : m2 ∈ db.computers := List.mem_of_find?_eq_some hm2
          have hm2pred0 := List.find?_some hm2
          have hm2pred := of_decide_eq_true hm2pred0
          intro hid
          have he2 : m2 = m0 := List.inj_on_of_nodup_map hids hm2mem hm0mem hid
          have : m2.ip_address = ip := by rw [he2, hm0pred.1]
          exact hnodup.1 (List.mem_map.mpr ⟨x2, hx2, by rw [← hm2pred.1]; exact this⟩)
      rw [hrep]
      show applyComputers (upsertPorts (applyComputers dbU cid rest).1
          (mergeComputer cd m0).id cd.ports) cid rest
        = ((applyComputers dbU cid rest).1, [])
      rw [upsertPorts_id cd.ports _ _ hvals]
      exact ih dbU hnodup.2 (fun x hx => hports x (List.mem_cons_of_mem _ hx))
        hthen2 (hUids ▸ hids)

/-! ## Preservation of freshness and of the port composite identity -/

theorem mkPorts_portKeys (ps : List (String × String)) :
    ∀ pid coid, portKeys (mkPorts pid coid ps) = ps.map (fun y => (coid, y.1)) := by
  induction ps with
  | nil => intro pid coid; rfl
  | cons head rest ih =>
      obtain ⟨p, s⟩ := head
      intro pid coid
      simp only [mkPorts, portKeys, List.map_cons] at *
      rw [ih]

theorem replaceFirst_portKeys (p : Port → Bool) (s : String) (l : List Port) :
    portKeys (replaceFirst p (fun q => { q with service_name := s }) l) = portKeys l := by
  induction l with
  | nil => rfl
  | cons a rest ih =>
      simp only [replaceFirst]
      by_cases h : p a = true
      · rw [if_pos h]; rfl
      · rw [if_neg h]
        simp only [portKeys, List.map_cons] at *
        rw [ih]

theorem any_iff_portKeys (l : List Port) (coid : Nat) (pn : String) :
    (l.any fun q => q.computer_id = coid ∧ q.port_number = pn) = true ↔
      (coid, pn) ∈ portKeys l := by
  rw [List.any_eq_true]
  constructor
  · rintro ⟨q, hq, hpq⟩
    obtain ⟨h1, h2⟩ := of_decide_eq_true hpq
    exact List.mem_map.mpr ⟨q, hq, by rw [h1, h2]⟩
  · intro h
    rcases List.mem_map.mp h with ⟨q, hq, he⟩
    exact ⟨q, hq, decide_eq_true ⟨congrArg Prod.fst he, congrArg Prod.snd he⟩⟩

/-- Membership in a first-match replacement: each element is an original
element or the image of one. -/
theorem replaceFirst_mem (p : α → Bool) (f : α → α) :
    ∀ (l : List α) (a : α), a ∈ replaceFirst p f l → a ∈ l ∨ ∃ b ∈ l, a = f b := by
  intro l
  induction l with
  | nil => intro a h; cases h
  | cons x rest ih =>
      intro a h
      simp only [replaceFirst] at h
      by_cases hx : p x = true
      · rw [if_pos hx] at h
        rcases List.mem_cons.mp h with rfl | h
        · exact .inr ⟨x, by simp, rfl⟩
        · exact .inl (List.mem_cons_of_mem _ h)
      · rw [if_neg hx] at h
        rcases List.mem_cons.mp h with rfl | h
        · exact .inl (by simp)
        · rcases ih a h with h | ⟨b, hb, he⟩
          · exact .inl (List.mem_cons_of_mem _ h)
          · exact .inr ⟨b, List.mem_cons_of_mem _ hb, he⟩

/-- One upsert loop keeps the port keys unique and the foreign keys below
the computer counter. -/
theorem upsertPorts_inv (ps : List (String × String)) :
    ∀ db coid, coid < db.nextComputerId → Fresh db → PortsUnique db →
      Fresh (upsertPorts db coid ps) ∧ PortsUnique (upsertPorts db coid ps) := by
  induction ps with
  | nil => intro db coid _ hfr hpu; exact ⟨hfr, hpu⟩
  | cons head rest ih =>
      obtain ⟨p, s⟩ := head
      intro db coid hlt hfr hpu
      obtain ⟨f1, f2, f3⟩ := hfr
      simp only [upsertPorts]
      by_cases hany : (db.ports.any fun q => q.computer_id = coid ∧ q.port_number = p) = true
      · rw [if_pos hany]
        refine ih _ _ hlt ⟨f1, f2, ?_⟩ ?_
        · intro q hq
          rcases replaceFirst_mem _ _ _ q hq with h | ⟨q0, h0, he⟩
          · exact f3 q h
          · rw [he]
            exact f3 q0 h0
        · show (portKeys (replaceFirst _ _ db.ports)).Nodup
          rw [replaceFirst_portKeys]
          exact hpu
      · rw [if_neg hany]
        refine ih _ _ hlt ⟨f1, f2, ?_⟩ ?_
        · intro q hq
          rcases List.mem_append.mp hq with h | h
          · exact f3 q h
          · rw [List.mem_singleton.mp h]
            exact hlt
        · show (portKeys (db.ports ++ [⟨db.nextPortId, p, s, coid⟩])).Nodup
          rw [portKeys, List.map_append]
          rw [List.nodup_append]
          refine ⟨hpu, List.nodup_singleton _, ?_⟩
          intro k hk
          have : k ∈ portKeys db.ports := hk
          simp only [List.map_cons, List.map_nil, List.mem_singleton]
          intro he
          rw [he] at this
          exact hany ((any_iff_portKeys _ _ _).mpr this)

/-- The per-IP update loop keeps freshness and the port composite identity
for any patch, given the target client id is a live id. -/
theorem applyComputers_inv (pcs : List (String × ComputerData)) :
    ∀ db cid, cid < db.nextClientId → Fresh db → PortsUnique db →
      Fresh (applyComputers db cid pcs).1 ∧ PortsUnique (applyComputers db cid pcs).1 := by
  induction pcs with
  | nil => intro db cid _ hfr hpu; exact ⟨hfr, hpu⟩
  | cons head rest ih =>
      obtain ⟨ip, cd⟩ := head
      intro db cid hcid hfr hpu
      obtain ⟨f1, f2, f3⟩ := hfr
      simp only [applyComputers]
      cases hf : db.computers.find? (fun c => c.ip_address = ip ∧ c.client_id = cid) with
      | some comp =>
          have hcm : comp ∈ db.computers := List.mem_of_find?_eq_some hf
          have hfr1 : Fresh { db with computers := replaceFirst (fun c => c.ip_address = ip ∧ c.client_id = cid) (mergeComputer cd) db.computers } := by
            refine ⟨f1, ?_, f3⟩
            intro m hm
            rcases replaceFirst_mem _ _ _ m hm with h | ⟨b, hb, he⟩
            · exact f2 m h
            · rw [he]
              exact f2 b hb
          obtain ⟨fU, pU⟩ := upsertPorts_inv cd.ports { db with computers := replaceFirst (fun c => c.ip_address = ip ∧ c.client_id = cid) (mergeComputer cd) db.computers } comp.id ((f2 comp hcm).1) hfr1 hpu
          exact ih _ cid (by rw [(upsertPorts_frame _ _ _).2.2.1]; exact hcid) fU pU
      | none =>
          have hfr1 : Fresh { db with computers := db.computers ++ [⟨db.nextComputerId, ip, cd.latency, cd.hostname, cid⟩], nextComputerId := db.nextComputerId + 1 } := by
            refine ⟨f1, ?_, ?_⟩
            · intro m hm
              show m.id < db.nextComputerId + 1 ∧ m.client_id < db.nextClientId
              have hm' : m ∈ db.computers ++ [(⟨db.nextComputerId, ip, cd.latency, cd.hostname, cid⟩ : Computer)] := hm
              rcases List.mem_append.mp hm' with h | h
              · have := f2 m h
                exact ⟨by omega, this.2⟩
              · rw [List.mem_singleton.mp h]
                exact ⟨Nat.lt_succ_self _, hcid⟩
            · intro q hq
              show q.computer_id < db.nextComputerId + 1
              have := f3 q hq
              omega
          have h2 := ih { db with computers := db.computers ++ [⟨db.nextComputerId, ip, cd.latency, cd.hostname, cid⟩], nextComputerId := db.nextComputerId + 1 } cid hcid hfr1 hpu
          exact h2

/-- One bulk-create computer loop keeps freshness and the port composite
identity, given distinct port keys per computer (dict shape) and a live
client id. -/
theorem insertComputers_inv (comps : List (String × ComputerData)) :
    ∀ db db' cid, cid < db.nextClientId →
      (∀ x ∈ comps, (x.2.ports.map Prod.fst).Nodup) →
      Fresh db → PortsUnique db →
      insertComputers db cid comps = .ok db' → Fresh db' ∧ PortsUnique db' := by
  induction comps with
  | nil =>
      intro db db' cid _ _ hfr hpu h
      cases h
      exact ⟨hfr, hpu⟩
  | cons head rest ih =>
      obtain ⟨ip, cd⟩ := head
      intro db db' cid hcid hdict hfr hpu h
      obtain ⟨f1, f2, f3⟩ := hfr
      simp only [insertComputers] at h
      by_cases hany : (db.computers.any fun c => c.ip_address = ip) = true
      · rw [if_pos hany] at h; cases h
      · rw [if_neg hany] at h
        set dbN : DB := { db with computers := db.computers ++ [⟨db.nextComputerId, ip, cd.latency, cd.hostname, cid⟩], ports := db.ports ++ mkPorts db.nextPortId db.nextComputerId cd.ports, nextComputerId := db.nextComputerId + 1, nextPortId := db.nextPortId + cd.ports.length } with hdbN
        refine ih dbN db' cid hcid (fun x hx => hdict x (List.mem_cons_of_mem _ hx)) ⟨f1, ?_, ?_⟩ ?_ h
        · intro m hm
          show m.id < db.nextComputerId + 1 ∧ m.client_id < db.nextClientId
          have hm' : m ∈ db.computers ++ [(⟨db.nextComputerId, ip, cd.latency, cd.hostname, cid⟩ : Computer)] := hm
          rcases List.mem_append.mp hm' with hm2 | hm2
          · have := f2 m hm2
            exact ⟨by omega, this.2⟩
          · rw [List.mem_singleton.mp hm2]
            exact ⟨Nat.lt_succ_self _, hcid⟩
        · intro q hq
          show q.computer_id < db.nextComputerId + 1
          have hq' : q ∈ db.ports ++ mkPorts db.nextPortId db.nextComputerId cd.ports := hq
          rcases List.mem_append.mp hq' with hq2 | hq2
          · have := f3 q hq2
            omega
          · have := mkPorts_mem _ _ _ q hq2
            omega
        · show (portKeys (db.ports ++ mkPorts db.nextPortId db.nextComputerId cd.ports)).Nodup
          rw [portKeys, List.map_append]
          rw [List.nodup_append]
          refine ⟨hpu, ?_, ?_⟩
          · show (portKeys (mkPorts db.nextPortId db.nextComputerId cd.ports)).Nodup
            rw [mkPorts_portKeys]
            have : cd.ports.map (fun y => (db.nextComputerId, y.1))
                = (cd.ports.map Prod.fst).map (fun a => (db.nextComputerId, a)) := by
              rw [List.map_map]
              rfl
            rw [this]
            exact (hdict (ip, cd) (by simp)).map
              (fun a b he => by simpa using congrArg Prod.snd he)
          · intro k hk
            have hk' : k ∈ portKeys db.ports := hk
            rcases List.mem_map.mp hk' with ⟨q, hq, he⟩
            have hlt := f3 q hq
            show ¬ k ∈ portKeys (mkPorts db.nextPortId db.nextComputerId cd.ports)
            rw [mkPorts_portKeys]
            intro hc
            rcases List.mem_map.mp hc with ⟨y, hy, he2⟩
            have : k.1 = db.nextComputerId := by rw [← he2]
            rw [← he] at this
            simp only at this
            omega

/-- The bulk-create entry loop keeps freshness and the port composite
identity for dict-shaped input. -/
theorem processEntries_inv (data : List ClientEntry) :
    ∀ db db', (∀ e ∈ data, ∀ x ∈ e.computers.getD [], (x.2.ports.map Prod.fst).Nodup) →
      Fresh db → PortsUnique db →
      processEntries db data = .ok db' → Fresh db' ∧ PortsUnique db' := by
  induction data with
  | nil =>
      intro db db' _ hfr hpu h
      cases h
      exact ⟨hfr, hpu⟩
  | cons e rest ih =>
      intro db db' hdict hfr hpu h
      simp only [processEntries] at h
      by_cases hv : (e.client.getD "" = "" ∨ ((e.computers.getD []).isEmpty : Bool))
      · rw [if_pos hv] at h; cases h
      · rw [if_neg hv] at h
        by_cases hex : (db.clients.any fun c => c.name = e.client.getD "") = true
        · rw [if_pos hex] at h; cases h
        · rw [if_neg hex] at h
          cases hins : insertComputers (addClientRow db (e.client.getD ""))
              db.nextClientId (e.computers.getD []) with
          | error f => rw [hins] at h; cases h
          | ok db2 =>
              rw [hins] at h
              obtain ⟨f1, f2, f3⟩ := hfr
              have hfrA : Fresh (addClientRow db (e.client.getD "")) := by
                refine ⟨?_, ?_, f3⟩
                · intro c hc
                  show c.id < db.nextClientId + 1
                  have hc' : c ∈ db.clients ++ [(⟨db.nextClientId, e.client.getD ""⟩ : Client)] := hc
                  rcases List.mem_append.mp hc' with hc2 | hc2
                  · have := f1 c hc2
                    omega
                  · rw [List.mem_singleton.mp hc2]
                    exact Nat.lt_succ_self _
                · intro m hm
                  show m.id < db.nextComputerId ∧ m.client_id < db.nextClientId + 1
                  have := f2 m hm
                  exact ⟨this.1, by omega⟩
              obtain ⟨hfr2, hpu2⟩ := insertComputers_inv (e.computers.getD []) _ db2
                db.nextClientId (Nat.lt_succ_self _) (hdict e (by simp)) hfrA hpu hins
              exact ih _ _ (fun x hx => hdict x (List.mem_cons_of_mem _ hx)) hfr2 hpu2 h

/-- The state an update leaves behind: the rolled-back original, or the
result of the per-IP loop for the client found by name. -/
theorem update_client_snd (db : DB) (n : String) (d : UpdateData) :
    (update_client db n d).2 = db ∨
    ∃ cl, cl ∈ db.clients ∧
      (update_client db n d).2 = (applyComputers db cl.id (d.computers.getD [])).1 := by
  unfold update_client
  cases hfc : db.clients.find? (fun c => c.name = n) with
  | none => exact .inl rfl
  | some cl =>
      have hcl : cl ∈ db.clients := List.mem_of_find?_eq_some hfc
      show (match firstDupIp (db.computers.map (fun c : Computer => c.ip_address))
          (applyComputers db cl.id (d.computers.getD [])).2 with
        | some ip => (Result.fault (Fault.ipExists ip), db)
        | none => (Result.success ("Client '" ++ n ++ "' updated successfully"),
            (applyComputers db cl.id (d.computers.getD [])).1)).2 = db ∨
        ∃ cl2, cl2 ∈ db.clients ∧
          (match firstDupIp (db.computers.map (fun c : Computer => c.ip_address))
              (applyComputers db cl.id (d.computers.getD [])).2 with
            | some ip => (Result.fault (Fault.ipExists ip), db)
            | none => (Result.success ("Client '" ++ n ++ "' updated successfully"),
                (applyComputers db cl.id (d.computers.getD [])).1)).2
            = (applyComputers db cl2.id (d.computers.getD [])).1
      cases firstDupIp (db.computers.map (fun c => c.ip_address))
          (applyComputers db cl.id (d.computers.getD [])).2 with
      | some ip => exact .inl rfl
      | none => exact .inr ⟨cl, hcl, rfl⟩

/-- One API call keeps freshness and the port composite identity, for
dict-shaped input. -/
theorem runOp_inv (op : Op) (db : DB) (hdict : DictOp op)
    (hfr : Fresh db) (hpu : PortsUnique db) :
    Fresh (runOp db op) ∧ PortsUnique (runOp db op) := by
  cases op with
  | create data =>
      show Fresh (create_clients db data).2 ∧ PortsUnique (create_clients db data).2
      unfold create_clients
      cases hres : processEntries db data with
      | ok db2 => exact processEntries_inv data db db2 hdict hfr hpu hres
      | error f => exact ⟨hfr, hpu⟩
  | update n d =>
      show Fresh (update_client db n d).2 ∧ PortsUnique (update_client db n d).2
      rcases update_client_snd db n d with he | ⟨cl, hcl, he⟩
      · rw [he]
        exact ⟨hfr, hpu⟩
      · rw [he]
        exact applyComputers_inv (d.computers.getD []) db cl.id (hfr.1 cl hcl) hfr hpu
  | delete n =>
      show Fresh (delete_client db n).2 ∧ PortsUnique (delete_client db n).2
      unfold delete_client
      cases hfc : db.clients.find? (fun c => c.name = n) with
      | none => exact ⟨hfr, hpu⟩
      | some cl =>
          obtain ⟨f1, f2, f3⟩ := hfr
          refine ⟨⟨?_, ?_, ?_⟩, ?_⟩
          · intro c hc
            exact f1 c (List.mem_of_mem_filter hc)
          · intro m hm
            exact f2 m (List.mem_of_mem_filter hm)
          · intro q hq
            exact f3 q (List.mem_of_mem_filter hq)
          · show (portKeys (db.ports.filter _)).Nodup
            refine List.Nodup.sublist ?_ hpu
            exact List.Sublist.map _ (List.filter_sublist _)

/-- A sequence of API calls keeps freshness and the port composite
identity. -/
theorem runOps_inv (ops : List Op) :
    ∀ db, (∀ op ∈ ops, DictOp op) → Fresh db → PortsUnique db →
      Fresh (runOps db ops) ∧ PortsUnique (runOps db ops) := by
  induction ops with
  | nil => intro db _ hfr hpu; exact ⟨hfr, hpu⟩
  | cons op rest ih =>
      intro db hdict hfr hpu
      obtain ⟨hfr2, hpu2⟩ := runOp_inv op db (hdict op (by simp)) hfr hpu
      exact ih _ (fun o ho => hdict o (List.mem_cons_of_mem _ ho)) hfr2 hpu2

/-! ## The claims -/

/-- C9 (confirmed): after any sequence of bulk-create, partial-update and
delete calls on the initially empty database — with each bulk-create's
ports mappings dict-shaped (distinct keys, as Python dicts guarantee, the
condition `DictOp`; updates and deletes need no condition) — every
computer has at most one port row per port_number: the (computer_id,
port_number) keys of the ports table stay pairwise distinct, although the
schema declares no uniqueness constraint on ports. Bulk-create derives each
computer's rows from a distinct-key mapping under a fresh computer id,
partial-update checks for an existing row before inserting, and delete only
removes rows. -/
theorem c9_port_composite_identity (ops : List Op)
    (hdict : ∀ op ∈ ops, DictOp op) :
    PortsUnique (runOps emptyDB ops) :=
  (runOps_inv ops emptyDB hdict (by decide) (by decide)).2

/-- C9 witness: a concrete create/update/create/delete sequence. -/
theorem c9_port_composite_identity_witness :
    PortsUnique (runOps emptyDB [Op.create [acmeEntry],
      Op.update "acme" freshPortPatch, Op.create [betaEntry], Op.delete "beta"]) :=
  c9_port_composite_identity
    [Op.create [acmeEntry], Op.update "acme" freshPortPatch,
     Op.create [betaEntry], Op.delete "beta"] (by decide)

/-- C4 (confirmed): a bulk-create whose input repeats a client name, or
contains an entry whose client name already exists in the persisted state,
yields a Conflict fault — the explicit existence check of app.py line 74,
which also sees rows flushed by earlier entries of the same call — and the
rollback persists nothing, not even earlier valid entries. Entries are
assumed to pass the per-entry validation of line 70 (nominal inputs), since
a malformed entry would fault first with InvalidInput. -/
theorem c4_duplicate_client_name_conflict (db : DB) (data : List ClientEntry)
    (hvalid : ∀ e ∈ data, ValidEntry e)
    (hdup : ¬ (entryNames data).Nodup ∨
      ∃ e ∈ data, e.client.getD "" ∈ db.clients.map Client.name) :
    ∃ f, create_clients db data = (.fault f, db) ∧ f.isConflict = true := by
  cases hres : processEntries db data with
  | error f =>
      exact ⟨f, by unfold create_clients; rw [hres],
        processEntries_error_conflict _ _ _ hvalid hres⟩
  | ok db' =>
      exfalso
      obtain ⟨hnodup, hfresh⟩ := processEntries_names _ _ _ hres
      rcases hdup with h | ⟨e, he, hmem⟩
      · exact h hnodup
      · exact hfresh _ (List.mem_map_of_mem _ he) hmem

/-- C4 witness: bulk-creating `betaEntry` twice in one call on `acmeDB`
(duplicate name in the call), with "acme" already persisted covering the
second disjunct on the concrete input `[acmeEntry]`. -/
theorem c4_duplicate_client_name_conflict_witness :
    (∃ f, create_clients acmeDB [betaEntry, betaEntry] = (.fault f, acmeDB) ∧
      f.isConflict = true) ∧
    (∃ f, create_clients acmeDB [acmeEntry] = (.fault f, acmeDB) ∧
      f.isConflict = true) :=
  ⟨c4_duplicate_client_name_conflict acmeDB [betaEntry, betaEntry]
      (by decide) (.inl (by decide)),
   c4_duplicate_client_name_conflict acmeDB [acmeEntry]
      (by decide) (.inr ⟨acmeEntry, by decide, by decide⟩)⟩

/-- C1 (confirmed): with a computer row holding IP X owned by one client, a
bulk-create containing X among its ips (first conjunct) and a
partial-update on a different existing client B whose patch maps X (second
conjunct) both yield a Conflict fault and persist nothing. In both cases
the conflict surfaces through the UNIQUE index on computers.ip_address: at
the per-row flush during bulk-create, and at commit during the update —
whose client-scoped lookup (line 147) misses X and falls into the
new-computer branch, so the pending INSERT collides. Bulk entries are
assumed to pass the line-70 validation (else InvalidInput preempts). -/
theorem c1_cross_client_ip_conflict (db : DB) (X n : String) (comp : Computer)
    (B : Client) (data : List ClientEntry) (patch : UpdateData)
    (hwf : WF db)
    (hcomp : comp ∈ db.computers) (hX : comp.ip_address = X)
    (hfound : (db.clients.find? fun c => c.name = n) = some B)
    (hdiff : ¬ comp.client_id = B.id)
    (hvalid : ∀ e ∈ data, ValidEntry e) (hXdata : X ∈ entryIps data)
    (hXpatch : X ∈ (patch.computers.getD []).map Prod.fst) :
    (∃ f, create_clients db data = (.fault f, db) ∧ f.isConflict = true) ∧
    (∃ f, update_client db n patch = (.fault f, db) ∧ f.isConflict = true) := by
  obtain ⟨-, -, -, hips, -⟩ := hwf
  constructor
  · cases hres : processEntries db data with
    | error f =>
        exact ⟨f, by unfold create_clients; rw [hres],
          processEntries_error_conflict _ _ _ hvalid hres⟩
    | ok db' =>
        exact absurd (List.mem_map.mpr ⟨comp, hcomp, hX⟩)
          (processEntries_ips _ _ _ hres X hXdata)
  · have hkey : ¬ (X, B.id) ∈ compKeys db.computers := by
      intro hk
      rcases List.mem_map.mp hk with ⟨m, hm, he⟩
      have hmX : m.ip_address = X := congrArg Prod.fst he
      have hmB : m.client_id = B.id := congrArg Prod.snd he
      have hmc : m = comp := List.inj_on_of_nodup_map hips hm hcomp (by rw [hmX, hX])
      exact hdiff (hmc ▸ hmB)
    rcases List.mem_map.mp hXpatch with ⟨⟨a, b⟩, hab, ha⟩
    have hmemX : ((X, b) : String × ComputerData) ∈ patch.computers.getD [] := by
      cases ha
      exact hab
    have hnew : X ∈ (applyComputers db B.id (patch.computers.getD [])).2 :=
      applyComputers_newIp B.id X _ db b hmemX hkey
    have hXex : X ∈ db.computers.map (fun c => c.ip_address) :=
      List.mem_map.mpr ⟨comp, hcomp, hX⟩
    obtain ⟨ipd, hfd⟩ := firstDupIp_some X _ _ hnew hXex
    refine ⟨.ipExists ipd, ?_, rfl⟩
    unfold update_client
    rw [hfound]
    simp only [hfd]

/-- C1 witness: on `twoDB` (acme owns 10.0.0.1, beta exists), the
bulk-create of "gamma" with 10.0.0.1 and the partial-update of "beta"
patching 10.0.0.1. -/
theorem c1_cross_client_ip_conflict_witness :
    (∃ f, create_clients twoDB
        [⟨some "gamma", some [("10.0.0.1", ⟨none, none, []⟩)]⟩] =
        (.fault f, twoDB) ∧ f.isConflict = true) ∧
    (∃ f, update_client twoDB "beta"
        ⟨some [("10.0.0.1", ⟨some "9ms", none, []⟩)]⟩ =
        (.fault f, twoDB) ∧ f.isConflict = true) :=
  c1_cross_client_ip_conflict twoDB "10.0.0.1" "beta"
    ⟨1, "10.0.0.1", some "2ms", some "web1", 1⟩ ⟨2, "beta"⟩
    [⟨some "gamma", some [("10.0.0.1", ⟨none, none, []⟩)]⟩]
    ⟨some [("10.0.0.1", ⟨some "9ms", none, []⟩)]⟩
    (by decide) (by decide) (by decide) (by decide) (by decide) (by decide)
    (by decide) (by decide)

/-- C10 (confirmed): a partial-update on an existing client whose body has
no `computers` key (`data.get("computers", {})` defaults to the empty
mapping, app.py line 146) or maps it to an empty mapping is not rejected as
invalid input: it succeeds with the confirmation message and leaves the
persisted state unchanged. -/
theorem c10_update_without_computers_is_noop (db : DB) (n : String) (cl : Client)
    (hfind : (db.clients.find? fun c => c.name = n) = some cl) :
    update_client db n ⟨none⟩ =
      (.success ("Client '" ++ n ++ "' updated successfully"), db) ∧
    update_client db n ⟨some []⟩ =
      (.success ("Client '" ++ n ++ "' updated successfully"), db) := by
  unfold update_client
  rw [hfind]
  simp [applyComputers, firstDupIp]

/-- C10 witness: the empty patches on the concrete state `acmeDB`. -/
theorem c10_update_without_computers_is_noop_witness :
    update_client acmeDB "acme" ⟨none⟩ =
      (.success ("Client '" ++ "acme" ++ "' updated successfully"), acmeDB) ∧
    update_client acmeDB "acme" ⟨some []⟩ =
      (.success ("Client '" ++ "acme" ++ "' updated successfully"), acmeDB) :=
  c10_update_without_computers_is_noop acmeDB "acme" ⟨1, "acme"⟩ (by decide)

/-- C5 counterexample: on the empty persisted state, list-all does not
return the empty sequence of client trees; it returns the JSON object with
the message "No clients found" (app.py line 117). -/
theorem c5_counterexample :
    get_all_clients emptyDB = .message "No clients found" ∧
    ¬ get_all_clients emptyDB = .trees [] := by decide

/-- C5 amended: list-all always succeeds — `get_all_clients` is total, with
no fault path — and returns the projected sequence of client trees whenever
at least one client row exists; but with no client rows it returns the
message object "No clients found", not an empty sequence. -/
theorem c5_list_all_never_faults (db : DB) :
    (db.clients = [] → get_all_clients db = .message "No clients found") ∧
    (db.clients ≠ [] → get_all_clients db = .trees (db.clients.map (clientTree db))) := by
  refine ⟨fun h => ?_, fun h => ?_⟩ <;>
    simp [get_all_clients, h, List.isEmpty_iff]

/-- C2 counterexample: updating "acme" with a patch that maps the globally
fresh IP 10.0.0.2 to data carrying the ports mapping {22: ssh} succeeds and
creates the computer, but no port row for it is created — against the
claim's "all of the given ports (the same creation rule as bulk-create)". -/
theorem c2_counterexample :
    (update_client acmeDB "acme" freshPortPatch).1 =
      .success ("Client '" ++ "acme" ++ "' updated successfully") ∧
    ((update_client acmeDB "acme" freshPortPatch).2.computers.any
      (fun c => c.ip_address = "10.0.0.2")) = true ∧
    ((update_client acmeDB "acme" freshPortPatch).2.ports.any
      (fun p => p.port_number = "22")) = false := by decide

/-- C2 amended: a partial-update on an existing client whose patch maps an
IP existing nowhere in the persisted state succeeds and creates a new
computer owned by the target client with the given latency and hostname,
but — unlike bulk-create — with none of the given ports: the new-computer
branch of update_client (app.py lines 161-169) never reads the patch's
ports mapping, so the ports table is untouched. -/
theorem c2_new_computer_ignores_ports (db : DB) (n ip : String)
    (cd : ComputerData) (cl : Client)
    (hfind : (db.clients.find? fun c => c.name = n) = some cl)
    (hfresh : ∀ m ∈ db.computers, ¬ m.ip_address = ip) :
    update_client db n ⟨some [(ip, cd)]⟩ =
      (.success ("Client '" ++ n ++ "' updated successfully"),
       { db with
          computers :=
            db.computers ++ [⟨db.nextComputerId, ip, cd.latency, cd.hostname, cl.id⟩],
          nextComputerId := db.nextComputerId + 1 }) := by
  unfold update_client
  rw [hfind]
  have hnone : (db.computers.find? fun c => c.ip_address = ip ∧ c.client_id = cl.id) = none := by
    rw [List.find?_eq_none]
    intro m hm
    simp only [decide_eq_true_eq, not_and]
    exact fun h => absurd h (hfresh m hm)
  have hmem : ¬ ip ∈ db.computers.map Computer.ip_address := by
    rw [List.mem_map]
    rintro ⟨m, hm, rfl⟩
    exact hfresh m hm rfl
  simp only [applyComputers, Option.getD_some]
  rw [hnone]
  simp [firstDupIp, hmem]

/-- C7 counterexample: the patch `freshPortPatch` on `acmeDB` succeeds, but
applying it twice does not equal applying it once — the first application
creates the computer 10.0.0.2 without its ports (the new-computer branch
drops them), the second application finds the computer and inserts port 22,
so the claim's unrestricted idempotence fails. -/
theorem c7_counterexample :
    (update_client acmeDB "acme" freshPortPatch).1 =
      .success ("Client '" ++ "acme" ++ "' updated successfully") ∧
    ¬ (update_client (update_client acmeDB "acme" freshPortPatch).2
        "acme" freshPortPatch).2
      = (update_client acmeDB "acme" freshPortPatch).2 := by decide

/-- C7 amended: for an existing client and a partial-update patch with
distinct ip keys and distinct port keys (dict shape) whose every IP already
belongs to the targeted client, the update succeeds; a port number that
already exists under the targeted computer gets only its service_name
overwritten (the patch's port keys afterwards resolve to rows carrying the
patch's service values); and applying the same patch a second time returns
the same response and the identical persisted state (idempotence). The
restriction to patches whose IPs already exist under the target is forced
by the counterexample: a patch that creates a new computer drops the ports
on the first run and inserts them on the second. -/
theorem c7_port_upsert_idempotent (db : DB) (n : String) (cl : Client)
    (pd : UpdateData)
    (hfind : (db.clients.find? fun c => c.name = n) = some cl)
    (hthen : ∀ x ∈ pd.computers.getD [], ∃ m, db.computers.find?
      (fun c => c.ip_address = x.1 ∧ c.client_id = cl.id) = some m)
    (hkeys : ((pd.computers.getD []).map Prod.fst).Nodup)
    (hports : ∀ x ∈ pd.computers.getD [], (x.2.ports.map Prod.fst).Nodup)
    (hids : (db.computers.map Computer.id).Nodup) :
    (update_client db n pd).1 =
      .success ("Client '" ++ n ++ "' updated successfully") ∧
    update_client (update_client db n pd).2 n pd = update_client db n pd ∧
    (∀ x ∈ pd.computers.getD [], ∀ m, db.computers.find?
        (fun c => c.ip_address = x.1 ∧ c.client_id = cl.id) = some m →
      ∀ y ∈ x.2.ports, ∃ q, (update_client db n pd).2.ports.find?
          (fun r => r.computer_id = m.id ∧ r.port_number = y.1) = some q ∧
        q.service_name = y.2) := by
  obtain ⟨p1, p2, -, -, -, -⟩ :=
    applyComputers_then cl.id (pd.computers.getD []) db hkeys hthen
  have hupd : update_client db n pd =
      (.success ("Client '" ++ n ++ "' updated successfully"),
       (applyComputers db cl.id (pd.computers.getD [])).1) := by
    simp only [update_client, hfind, p1, firstDupIp]
  refine ⟨by rw [hupd], ?_, ?_⟩
  · have hidem := applyComputers_idem cl.id (pd.computers.getD []) db
      hkeys hports hthen hids
    rw [hupd]
    show update_client (applyComputers db cl.id (pd.computers.getD [])).1 n pd = _
    simp only [update_client, p2, hfind, hidem, firstDupIp]
  · intro x hx m hm y hy
    obtain ⟨q, hq, hqs⟩ := applyComputers_sets cl.id (pd.computers.getD []) db
      hkeys hports hthen hids x hx m hm y hy
    refine ⟨q, ?_, hqs⟩
    rw [hupd]
    exact hq

/-- C7 witness for the amended theorem: on `acmeDB`, a patch for the
existing computer 10.0.0.1 overwriting port 80 and adding port 8080. -/
theorem c7_port_upsert_idempotent_witness :
    ((update_client acmeDB "acme"
        ⟨some [("10.0.0.1", ⟨none, none, [("80", "HTTP"), ("8080", "proxy")]⟩)]⟩).1 =
      .success ("Client '" ++ "acme" ++ "' updated successfully") ∧
    update_client (update_client acmeDB "acme"
        ⟨some [("10.0.0.1", ⟨none, none, [("80", "HTTP"), ("8080", "proxy")]⟩)]⟩).2
        "acme" ⟨some [("10.0.0.1", ⟨none, none, [("80", "HTTP"), ("8080", "proxy")]⟩)]⟩
      = update_client acmeDB "acme"
        ⟨some [("10.0.0.1", ⟨none, none, [("80", "HTTP"), ("8080", "proxy")]⟩)]⟩ ∧
    (∀ x ∈ (UpdateData.mk (some [("10.0.0.1",
          ⟨none, none, [("80", "HTTP"), ("8080", "proxy")]⟩)])).computers.getD [],
      ∀ m, acmeDB.computers.find?
          (fun c => c.ip_address = x.1 ∧ c.client_id = Client.id ⟨1, "acme"⟩) = some m →
      ∀ y ∈ x.2.ports, ∃ q, (update_client acmeDB "acme"
          ⟨some [("10.0.0.1", ⟨none, none, [("80", "HTTP"), ("8080", "proxy")]⟩)]⟩).2.ports.find?
          (fun r => r.computer_id = m.id ∧ r.port_number = y.1) = some q ∧
        q.service_name = y.2)) :=
  c7_port_upsert_idempotent acmeDB "acme" ⟨1, "acme"⟩
    ⟨some [("10.0.0.1", ⟨none, none, [("80", "HTTP"), ("8080", "proxy")]⟩)]⟩
    (by decide)
    (by
      intro x hx
      rcases List.mem_singleton.mp hx with rfl
      exact ⟨⟨1, "10.0.0.1", some "2ms", some "web1", 1⟩, by decide⟩)
    (by decide) (by decide) (by decide)

/-- C6 (confirmed): for an existing client owning the computer with IP `ip`
(the first — and, under the unique index, only — row matching the scoped
lookup of app.py line 147), a partial-update whose patch for `ip` carries
only a latency value replaces that computer's latency in place and leaves
its hostname, its id, its owner, every port row, every other computer,
every client and the id counters unchanged. -/
theorem c6_latency_only_merge (db : DB) (n ip v : String) (cl : Client)
    (pre post : List Computer) (comp : Computer)
    (hfind : (db.clients.find? fun c => c.name = n) = some cl)
    (hsplit : db.computers = pre ++ comp :: post)
    (hip : comp.ip_address = ip) (hown : comp.client_id = cl.id)
    (hpre : ∀ m ∈ pre, ¬ (m.ip_address = ip ∧ m.client_id = cl.id)) :
    update_client db n ⟨some [(ip, ⟨some v, none, []⟩)]⟩ =
      (.success ("Client '" ++ n ++ "' updated successfully"),
       { db with computers := pre ++ { comp with latency := some v } :: post }) := by
  have hfc : (db.computers.find? fun c => c.ip_address = ip ∧ c.client_id = cl.id)
      = some comp := by
    rw [hsplit]
    refine find?_append_cons _ _ _ _ (fun x hx => ?_) (by simp [hip, hown])
    simpa [decide_eq_true_eq] using hpre x hx
  have hrf : replaceFirst (fun c => decide (c.ip_address = ip ∧ c.client_id = cl.id))
      (mergeComputer ⟨some v, none, []⟩) db.computers
      = pre ++ { comp with latency := some v } :: post := by
    rw [hsplit]
    rw [replaceFirst_append_cons _ _ _ _ _
      (fun x hx => by simpa [decide_eq_true_eq] using hpre x hx) (by simp [hip, hown])]
    rfl
  unfold update_client
  rw [hfind]
  simp only [applyComputers, Option.getD_some]
  rw [hfc]
  simp only [upsertPorts, applyComputers, firstDupIp, hrf]

/-- C6 witness: the latency-only patch {latency: 5ms} for 10.0.0.1 on
`acmeDB`. -/
theorem c6_latency_only_merge_witness :
    update_client acmeDB "acme" ⟨some [("10.0.0.1", ⟨some "5ms", none, []⟩)]⟩ =
      (.success ("Client '" ++ "acme" ++ "' updated successfully"),
       { acmeDB with
          computers :=
            [] ++ { (⟨1, "10.0.0.1", some "2ms", some "web1", 1⟩ : Computer) with
                      latency := some "5ms" } :: [] }) :=
  c6_latency_only_merge acmeDB "acme" "10.0.0.1" "5ms" ⟨1, "acme"⟩ [] []
    ⟨1, "10.0.0.1", some "2ms", some "web1", 1⟩
    (by decide) (by decide) (by decide) (by decide) (by decide)

/-- C8 (confirmed): deleting an existing client succeeds with the
confirmation message, removes exactly that client row, leaves every other
client's entire projected tree (computers and ports) unchanged, and leaves
no computer row of the deleted client and no port row of those computers —
the ORM cascade of app.py lines 30 and 41; deleting a name that exists
nowhere yields the NotFound fault and leaves the state unchanged. -/
theorem c8_cascade_delete (db : DB) (n : String) (hwf : WF db) :
    (∀ pre c post, db.clients = pre ++ c :: post → c.name = n →
      (∀ x ∈ pre, ¬ x.name = n) →
      (delete_client db n).1 = .success ("Client '" ++ n ++ "' deleted successfully") ∧
      (delete_client db n).2.clients = pre ++ post ∧
      (∀ x ∈ pre ++ post, clientTree (delete_client db n).2 x = clientTree db x) ∧
      (∀ m ∈ (delete_client db n).2.computers, ¬ m.client_id = c.id) ∧
      (∀ q ∈ (delete_client db n).2.ports, ∀ m ∈ db.computers,
        m.client_id = c.id → ¬ q.computer_id = m.id)) ∧
    ((∀ x ∈ db.clients, ¬ x.name = n) → delete_client db n = (.fault .notFound, db)) := by
  obtain ⟨-, -, hcids, -, hmids⟩ := hwf
  constructor
  · intro pre c post hsplit hname hpren
    have hfc : (db.clients.find? fun x => x.name = n) = some c := by
      rw [hsplit]
      refine find?_append_cons _ _ _ _ (fun x hx => ?_) (by simp [hname])
      simpa using hpren x hx
    have hd : delete_client db n =
        (.success ("Client '" ++ n ++ "' deleted successfully"),
         ⟨db.clients.filter (fun x => ¬ x.id = c.id),
          db.computers.filter (fun m => ¬ m.client_id = c.id),
          db.ports.filter (fun q => ¬ q.computer_id ∈
            ((db.computers.filter (fun m => m.client_id = c.id)).map Computer.id)),
          db.nextClientId, db.nextComputerId, db.nextPortId⟩) := by
      unfold delete_client
      rw [hfc]
    have hcid_mid : c.id ∉ pre.map Client.id ++ post.map Client.id := by
      have h1 : (pre.map Client.id ++ c.id :: post.map Client.id).Nodup := by
        simpa [hsplit] using hcids
      exact (List.nodup_cons.mp (List.nodup_middle.mp h1)).1
    have hxid : ∀ x ∈ pre ++ post, ¬ x.id = c.id := by
      intro x hx he
      exact hcid_mid (by
        rcases List.mem_append.mp hx with h | h
        · exact List.mem_append.mpr (.inl (he ▸ List.mem_map_of_mem Client.id h))
        · exact List.mem_append.mpr (.inr (he ▸ List.mem_map_of_mem Client.id h)))
    have hmid_dead : ∀ m ∈ db.computers, ¬ m.client_id = c.id →
        m.id ∉ (db.computers.filter (fun m => m.client_id = c.id)).map Computer.id := by
      intro m hm hmc hmem
      rcases List.mem_map.mp hmem with ⟨m', hm', he⟩
      have hm'mem := List.mem_of_mem_filter hm'
      have : m' = m := List.inj_on_of_nodup_map hmids hm'mem hm he
      exact hmc (this ▸ (by simpa using List.of_mem_filter hm'))
    refine ⟨by rw [hd], ?_, ?_, ?_, ?_⟩
    · rw [hd]
      show (db.clients.filter (fun x => ¬ x.id = c.id)) = pre ++ post
      rw [hsplit, List.filter_append, List.filter_cons,
        List.filter_eq_self.mpr fun x hx =>
          by simpa using hxid x (List.mem_append.mpr (.inl hx)),
        List.filter_eq_self.mpr fun x hx =>
          by simpa using hxid x (List.mem_append.mpr (.inr hx))]
      simp
    · intro x hx
      rw [hd]
      have hxc : ¬ x.id = c.id := hxid x hx
      show clientTree
        ⟨db.clients.filter (fun y => ¬ y.id = c.id),
         db.computers.filter (fun m => ¬ m.client_id = c.id),
         db.ports.filter (fun q => ¬ q.computer_id ∈
           ((db.computers.filter (fun m => m.client_id = c.id)).map Computer.id)),
         db.nextClientId, db.nextComputerId, db.nextPortId⟩ x = clientTree db x
      unfold clientTree
      have hcomp : (db.computers.filter (fun m => ¬ m.client_id = c.id)).filter
          (fun m => m.client_id = x.id) = db.computers.filter (fun m => m.client_id = x.id) := by
        rw [List.filter_filter]
        refine List.filter_congr fun m hm => ?_
        by_cases h : m.client_id = x.id
        · simp [h, hxc]
        · simp [h]
      simp only [hcomp]
      refine congrArg (ClientTree.mk x.name) (List.map_congr_left fun m hm => ?_)
      have hmmem := List.mem_of_mem_filter hm
      have hmxid : m.client_id = x.id := by simpa using List.of_mem_filter hm
      have hports : (db.ports.filter (fun q => ¬ q.computer_id ∈
          ((db.computers.filter (fun m => m.client_id = c.id)).map Computer.id))).filter
          (fun q => q.computer_id = m.id) = db.ports.filter (fun q => q.computer_id = m.id) := by
        rw [List.filter_filter]
        refine List.filter_congr fun q hq => ?_
        by_cases h : q.computer_id = m.id
        · have hnd := hmid_dead m hmmem (fun hcc => hxc (by rw [← hmxid, hcc]))
          simp [h, hnd]
        · simp [h]
      rw [hports]
    · intro m hm
      rw [hd] at hm
      simpa using List.of_mem_filter hm
    · intro q hq m hm hmc
      rw [hd] at hq
      have hqnot : q.computer_id ∉
          (db.computers.filter (fun m => m.client_id = c.id)).map Computer.id := by
        simpa using List.of_mem_filter hq
      intro he
      exact hqnot (he ▸ List.mem_map_of_mem Computer.id
        (List.mem_filter.mpr ⟨hm, by simpa using hmc⟩))
  · intro hnone
    unfold delete_client
    rw [List.find?_eq_none.mpr fun x hx => by simpa using hnone x hx]

/-- C8 witness: deleting "acme" from the two-client state `twoDB`, and
deleting the absent name "nobody". -/
theorem c8_cascade_delete_witness :
    ((delete_client twoDB "acme").1 =
        .success ("Client '" ++ "acme" ++ "' deleted successfully") ∧
      (delete_client twoDB "acme").2.clients = [] ++ [⟨2, "beta"⟩] ∧
      (∀ x ∈ ([] ++ [(⟨2, "beta"⟩ : Client)]),
        clientTree (delete_client twoDB "acme").2 x = clientTree twoDB x) ∧
      (∀ m ∈ (delete_client twoDB "acme").2.computers, ¬ m.client_id = 1) ∧
      (∀ q ∈ (delete_client twoDB "acme").2.ports, ∀ m ∈ twoDB.computers,
        m.client_id = 1 → ¬ q.computer_id = m.id)) ∧
    (delete_client twoDB "nobody" = (.fault .notFound, twoDB)) := by
  have h := c8_cascade_delete twoDB "acme" (by decide)
  have h' := c8_cascade_delete twoDB "nobody" (by decide)
  exact ⟨h.1 [] ⟨1, "acme"⟩ [⟨2, "beta"⟩] (by decide) (by decide) (by decide),
    h'.2 (by decide)⟩

/-- C2 witness for the amended theorem: the concrete patch `freshPortPatch`
on `acmeDB`. -/
theorem c2_new_computer_ignores_ports_witness :
    update_client acmeDB "acme"
        ⟨some [("10.0.0.2", ⟨some "3ms", some "web2", [("22", "ssh")]⟩)]⟩ =
      (.success ("Client '" ++ "acme" ++ "' updated successfully"),
       { acmeDB with
          computers :=
            acmeDB.computers ++ [⟨acmeDB.nextComputerId, "10.0.0.2", some "3ms", some "web2", 1⟩],
          nextComputerId := acmeDB.nextComputerId + 1 }) :=
  c2_new_computer_ignores_ports acmeDB "acme" "10.0.0.2"
    ⟨some "3ms", some "web2", [("22", "ssh")]⟩ ⟨1, "acme"⟩ (by decide) (by decide)

end Nester
